import Mathlib

/-!
Verification of the epicurrents/edf-reader signal engine.

The TypeScript sources are shallowly embedded over exact rationals:
JavaScript numbers become `ℚ`, `Float32Array` buffers become `List ℚ`,
JavaScript `Map` objects become association lists, fallible code returns
`Option`/`Except`.  `Math.round` is `jsRound` (round half towards +∞, as in
JavaScript).  Definitions follow the structure of the corresponding source
functions in `src/edf/EdfDecoder.ts`, `src/edf/EdfProcesser.ts` and the
worker variant holding the gap/time conversion helpers.
-/

namespace EdfReader

/-- JavaScript `Math.round`: rounds half towards positive infinity. -/
def jsRound (x : ℚ) : ℤ := ⌊x + 1/2⌋

/-- Sum of the second components (durations) of a gap list. -/
def durSum (l : List (ℚ × ℚ)) : ℚ := (l.map Prod.snd).sum

@[simp] theorem durSum_nil : durSum [] = 0 := rfl

@[simp] theorem durSum_cons (g : ℚ × ℚ) (l : List (ℚ × ℚ)) :
    durSum (g :: l) = g.2 + durSum l := by
  simp [durSum]

/-! ## C2: digital → physical conversion (EdfDecoder.decodeHeader lines 735-756,
EdfDecoder.decodeData lines 406-417) -/

/-- EDF per-signal information, as derived while parsing the signal block of
the header (`EdfDecoder.decodeHeader`). Only the numeric fields that take
part in the digital-to-physical conversion are kept. -/
structure EdfSignalInfo where
  digitalMaximum : ℚ
  digitalMinimum : ℚ
  physicalMaximum : ℚ
  physicalMinimum : ℚ
  unitsPerBit : ℚ
  digitalOffset : ℚ
  sampleCount : ℕ
  deriving Repr, DecidableEq

/-- Derivation of a signal-info entry as in `EdfDecoder.decodeHeader`:
`unitsPerBit = (physMax - physMin)/(digMax - digMin)` and
`digitalOffset = physMax/unitsPerBit - digMax`.  (In `ℚ` division by zero
yields zero, mirroring the fact that in JavaScript these expressions become
non-finite and poison the conversion.) -/
def mkSignalInfo (digMax digMin physMax physMin : ℚ) (sampleCount : ℕ) :
    EdfSignalInfo :=
  let unitsPerBit := (physMax - physMin) / (digMax - digMin)
  { digitalMaximum := digMax
    digitalMinimum := digMin
    physicalMaximum := physMax
    physicalMinimum := physMin
    unitsPerBit := unitsPerBit
    digitalOffset := physMax / unitsPerBit - digMax
    sampleCount := sampleCount }

/-- The per-sample conversion of `EdfDecoder.decodeData`:
`physical = unitsPerBit * (digital + digitalOffset)`. -/
def physicalSample (sig : EdfSignalInfo) (d : ℚ) : ℚ :=
  sig.unitsPerBit * (d + sig.digitalOffset)

/-- Per-record conversion of one channel in `EdfDecoder.decodeData`:
annotation channels keep an all-zero physical vector, other channels map
every digital sample through `physicalSample`. -/
def convertChannel (sig : EdfSignalInfo) (isAnnot : Bool) (raw : List ℚ) :
    List ℚ :=
  if isAnnot then List.replicate raw.length 0
  else raw.map (physicalSample sig)

/-- The textbook conversion formula named by the specification. -/
def textbookPhysical (digMax digMin physMax physMin d : ℚ) : ℚ :=
  ((d - digMin) / (digMax - digMin)) * (physMax - physMin) + physMin

/-- C2 (corrected): for every non-annotation channel, `decodeData` converts each
digital sample `d` to `unitsPerBit * (d + digitalOffset)` with `unitsPerBit` and
`digitalOffset` derived at header-parse time, and — provided additionally that
`physicalMax ≠ physicalMin` (so that the division `physicalMax / unitsPerBit`
in the derived offset is by a nonzero quantity) — this value equals, in exact
arithmetic, the textbook formula
`((d - digMin)/(digMax - digMin)) * (physMax - physMin) + physMin`. -/
theorem c2_physical_conversion_eq_textbook
    (digMax digMin physMax physMin : ℚ) (n : ℕ)
    (hd : digMax ≠ digMin) (hp : physMax ≠ physMin)
    (raw : List ℚ) (i : ℕ) (hi : i < raw.length) :
    (convertChannel (mkSignalInfo digMax digMin physMax physMin n) false
        raw).getD i 0 =
      (mkSignalInfo digMax digMin physMax physMin n).unitsPerBit *
        (raw.getD i 0 +
          (mkSignalInfo digMax digMin physMax physMin n).digitalOffset) ∧
    (convertChannel (mkSignalInfo digMax digMin physMax physMin n) false
        raw).getD i 0 =
      textbookPhysical digMax digMin physMax physMin (raw.getD i 0) := by
  have hK : digMax - digMin ≠ 0 := sub_ne_zero.mpr hd
  have hP : physMax - physMin ≠ 0 := sub_ne_zero.mpr hp
  have hu : (physMax - physMin) / (digMax - digMin) ≠ 0 :=
    div_ne_zero hP hK
  have hget : (convertChannel (mkSignalInfo digMax digMin physMax physMin n)
      false raw).getD i 0 =
      physicalSample (mkSignalInfo digMax digMin physMax physMin n)
        (raw.getD i 0) := by
    simp only [convertChannel, if_neg (by simp : ¬ (false : Bool) = true)]
    rw [List.getD_eq_getElem?_getD, List.getElem?_map]
    rw [List.getElem?_eq_getElem hi]
    simp [List.getD_eq_getElem?_getD, List.getElem?_eq_getElem hi]
  constructor
  · rw [hget]; rfl
  · rw [hget]
    unfold physicalSample mkSignalInfo textbookPhysical
    simp only
    field_simp
    ring

/-- Witness for C2 at a concrete signal specification and sample. -/
theorem c2_physical_conversion_eq_textbook_witness :
    (convertChannel (mkSignalInfo 2047 (-2048) 500 (-500) 4) false
        [0, 100]).getD 1 0 =
      textbookPhysical 2047 (-2048) 500 (-500) 100 :=
  (c2_physical_conversion_eq_textbook 2047 (-2048) 500 (-500) 4
    (by norm_num) (by norm_num) [0, 100] 1 (by norm_num)).2

/-- Counterexample to C2 as stated: with `digitalMax ≠ digitalMin` but
`physicalMax = physicalMin = 1`, the code computes `unitsPerBit = 0` and
`digitalOffset = physMax/0 - digMax`, and the converted sample (0, the
poisoned value of `0 * (d + digitalOffset)`; `NaN` in JavaScript) differs
from the textbook value `1`. -/
theorem c2_counterexample :
    (2 : ℚ) ≠ 1 ∧
    (convertChannel (mkSignalInfo 2 1 1 1 1) false [0]).getD 0 0 ≠
      textbookPhysical 2 1 1 1 0 := by
  constructor
  · norm_num
  · norm_num [convertChannel, mkSignalInfo, physicalSample, textbookPhysical]

/-! ## C3: data-gap detection in `EdfDecoder.decodeData` (lines 358-387).

The `dataGaps` JavaScript `Map` becomes an association list with the
`Map.set` replace-on-existing-key semantics (`mapSet`); the per-record
discontinuity check becomes `processRecord`, and the loop over the decoded
records becomes `gapScan`.  The floating-point 16-ULP comparator
`floatsAreEqual(a, b, 16)` is kept abstract as a boolean parameter
`eqPrec`. -/

/-- JavaScript `Map.set`: replace the value when the key exists, otherwise
append the new pair. -/
def mapSet (m : List (ℚ × ℚ)) (k v : ℚ) : List (ℚ × ℚ) :=
  if k ∈ m.map Prod.fst then
    m.map (fun p => if p.1 = k then (k, v) else p)
  else m ++ [(k, v)]

/-- JavaScript `Map.get` on an association list. -/
def lookupKey (m : List (ℚ × ℚ)) (k : ℚ) : Option ℚ :=
  (m.find? (fun p => p.1 = k)).map Prod.snd

/-- Mutable state of the record loop in `EdfDecoder.decodeData`:
the accumulated `priorOffset`, the warning damper `startCorrection`, and the
`dataGaps` map. -/
structure GapState where
  priorOffset : ℚ
  startCorrection : ℚ
  gaps : List (ℚ × ℚ)
  deriving Repr, DecidableEq

/-- One iteration of the per-record discontinuity check of
`EdfDecoder.decodeData` (lines 358-387) at record index `r` with record-start
TAL timestamp `T`. -/
def processRecord (disc : Bool) (dur s0 : ℚ) (eqPrec : ℚ → ℚ → Bool)
    (st : GapState) (r : ℕ) (T : ℚ) : GapState :=
  let expected := (s0 + r) * dur + st.priorOffset
  let dataPos := (s0 + r) * dur
  if disc ∧ T > expected ∧ ¬ eqPrec T expected then
    { priorOffset := st.priorOffset + (T - expected)
      startCorrection := st.startCorrection
      gaps := mapSet st.gaps dataPos (T - expected) }
  else if T < expected + st.startCorrection ∧ ¬ eqPrec T expected then
    { st with startCorrection := T - expected }
  else st

/-- The record loop of `EdfDecoder.decodeData`, restricted to its gap
bookkeeping: fold `processRecord` over the record-start timestamps. -/
def gapScan (disc : Bool) (dur s0 : ℚ) (eqPrec : ℚ → ℚ → Bool) :
    GapState → ℕ → List ℚ → GapState
  | st, _, [] => st
  | st, r, T :: rest =>
      gapScan disc dur s0 eqPrec (processRecord disc dur s0 eqPrec st r T)
        (r + 1) rest

/-- `decodeData` gap collection over a buffer of records with record-start
timestamps `ts`, starting at record `s0` with accumulated prior gap time
`prior0`. -/
def decodeDataGaps (disc : Bool) (dur s0 : ℚ) (eqPrec : ℚ → ℚ → Bool)
    (prior0 : ℚ) (ts : List ℚ) : GapState :=
  gapScan disc dur s0 eqPrec
    { priorOffset := prior0, startCorrection := 0, gaps := [] } 0 ts

/-- Modelled from the claim/spec wording: record `r` yields a gap entry iff
the header is discontinuous and `T > expected` and `T` is not equal to
`expected` up to the precision comparator, where
`expected = (startRecord + r) * dataRecordDuration + priorGap`; the entry has
key `(startRecord + r) * dataRecordDuration` and duration `T - expected`,
which is added to the prior gap total for subsequent records. -/
def specGapsFrom (disc : Bool) (dur s0 : ℚ) (eqPrec : ℚ → ℚ → Bool) :
    ℚ → ℕ → List ℚ → List (ℚ × ℚ)
  | _, _, [] => []
  | prior, r, T :: rest =>
      let expected := (s0 + r) * dur + prior
      if disc ∧ T > expected ∧ ¬ eqPrec T expected then
        ((s0 + r) * dur, T - expected) ::
          specGapsFrom disc dur s0 eqPrec (prior + (T - expected)) (r + 1) rest
      else specGapsFrom disc dur s0 eqPrec prior (r + 1) rest

theorem mapSet_of_not_mem {m : List (ℚ × ℚ)} {k : ℚ} (v : ℚ)
    (h : k ∉ m.map Prod.fst) : mapSet m k v = m ++ [(k, v)] := by
  simp [mapSet, h]

theorem mapSet_length_of_mem {m : List (ℚ × ℚ)} {k : ℚ} (v : ℚ)
    (h : k ∈ m.map Prod.fst) : (mapSet m k v).length = m.length := by
  simp [mapSet, h]

theorem lookupKey_mapSet (m : List (ℚ × ℚ)) (k v : ℚ) :
    lookupKey (mapSet m k v) k = some v := by
  by_cases h : k ∈ m.map Prod.fst
  · simp only [mapSet, if_pos h, lookupKey]
    induction m with
    | nil => simp at h
    | cons p m ih =>
        by_cases hp : p.1 = k
        · simp [List.find?, hp]
        · have hm : k ∈ m.map Prod.fst := by
            rcases List.mem_map.mp h with ⟨q, hq, hqk⟩
            rcases List.mem_cons.mp hq with hq1 | hq2
            · exact absurd (hq1 ▸ hqk) hp
            · exact List.mem_map.mpr ⟨q, hq2, hqk⟩
          have := ih hm
          simpa [List.find?, hp] using this
  · simp only [mapSet, if_neg h, lookupKey]
    induction m with
    | nil => simp [List.find?]
    | cons p m ih =>
        have hp : ¬ p.1 = k := by
          intro hpk
          exact h (List.mem_map.mpr ⟨p, List.mem_cons_self _ _, hpk⟩)
        have hm : k ∉ m.map Prod.fst := by
          intro hmem
          rcases List.mem_map.mp hmem with ⟨q, hq, hqk⟩
          exact h (List.mem_map.mpr ⟨q, List.mem_cons_of_mem _ hq, hqk⟩)
        simpa [List.find?, hp] using ih hm

theorem gapScan_eq_specGaps (disc : Bool) (dur s0 : ℚ)
    (eqPrec : ℚ → ℚ → Bool) (hdur : 0 < dur) :
    ∀ (ts : List ℚ) (st : GapState) (r : ℕ),
      (∀ g ∈ st.gaps, g.1 < (s0 + r) * dur) →
      (gapScan disc dur s0 eqPrec st r ts).gaps
          = st.gaps ++ specGapsFrom disc dur s0 eqPrec st.priorOffset r ts ∧
      (gapScan disc dur s0 eqPrec st r ts).priorOffset
          = st.priorOffset +
              durSum (specGapsFrom disc dur s0 eqPrec st.priorOffset r ts)
  | [], st, r, _ => by simp [gapScan, specGapsFrom]
  | T :: rest, st, r, hkeys => by
      have hstep : ((s0 + (r + 1 : ℕ)) : ℚ) * dur = (s0 + r) * dur + dur := by
        push_cast; ring
      by_cases hc : disc ∧ T > (s0 + r) * dur + st.priorOffset ∧
          ¬ eqPrec T ((s0 + r) * dur + st.priorOffset)
      · have hnew : (s0 + r) * dur ∉ st.gaps.map Prod.fst := by
          intro hmem
          rcases List.mem_map.mp hmem with ⟨g, hg, hgk⟩
          exact absurd (hgk ▸ hkeys g hg) (lt_irrefl _)
        have hst' : processRecord disc dur s0 eqPrec st r T =
            { priorOffset := st.priorOffset + (T - ((s0 + r) * dur + st.priorOffset))
              startCorrection := st.startCorrection
              gaps := st.gaps ++ [((s0 + r) * dur,
                T - ((s0 + r) * dur + st.priorOffset))] } := by
          simp only [processRecord, if_pos hc, mapSet_of_not_mem _ hnew]
        have hkeys' : ∀ g ∈ (processRecord disc dur s0 eqPrec st r T).gaps,
            g.1 < (s0 + (r + 1 : ℕ)) * dur := by
          rw [hst']
          intro g hg
          rcases List.mem_append.mp hg with hg1 | hg2
          · calc g.1 < (s0 + r) * dur := hkeys g hg1
              _ < (s0 + (r + 1 : ℕ)) * dur := by rw [hstep]; linarith
          · simp only [List.mem_singleton] at hg2
            rw [hg2]
            show (s0 + r) * dur < _
            rw [hstep]; linarith
        have ih := gapScan_eq_specGaps disc dur s0 eqPrec hdur rest
          (processRecord disc dur s0 eqPrec st r T) (r + 1) hkeys'
        constructor
        · show (gapScan disc dur s0 eqPrec
              (processRecord disc dur s0 eqPrec st r T) (r + 1) rest).gaps = _
          rw [ih.1, hst']
          simp only [specGapsFrom, if_pos hc]
          simp
        · show (gapScan disc dur s0 eqPrec
              (processRecord disc dur s0 eqPrec st r T) (r + 1) rest).priorOffset = _
          rw [ih.2, hst']
          simp only [specGapsFrom, if_pos hc]
          simp only [durSum_cons]
          ring
      · have hst' : (processRecord disc dur s0 eqPrec st r T).gaps = st.gaps ∧
            (processRecord disc dur s0 eqPrec st r T).priorOffset
              = st.priorOffset := by
          simp only [processRecord, if_neg hc]
          constructor <;> (split <;> rfl)
        have hkeys' : ∀ g ∈ (processRecord disc dur s0 eqPrec st r T).gaps,
            g.1 < (s0 + (r + 1 : ℕ)) * dur := by
          rw [hst'.1]
          intro g hg
          calc g.1 < (s0 + r) * dur := hkeys g hg
            _ < (s0 + (r + 1 : ℕ)) * dur := by rw [hstep]; linarith
        have ih := gapScan_eq_specGaps disc dur s0 eqPrec hdur rest
          (processRecord disc dur s0 eqPrec st r T) (r + 1) hkeys'
        constructor
        · show (gapScan disc dur s0 eqPrec
              (processRecord disc dur s0 eqPrec st r T) (r + 1) rest).gaps = _
          rw [ih.1, hst'.1, hst'.2]
          simp only [specGapsFrom, if_neg hc]
        · show (gapScan disc dur s0 eqPrec
              (processRecord disc dur s0 eqPrec st r T) (r + 1) rest).priorOffset = _
          rw [ih.2, hst'.2]
          simp only [specGapsFrom, if_neg hc]

/-- C3 (confirmed): a record at absolute index `startRecord + r` yields a gap
entry iff the header is discontinuous, `T > expected` and `T` is not equal to
`expected` up to the 16-ULP comparator (abstracted as `eqPrec`), where
`expected = (startRecord + r) * dataRecordDuration + priorGap`; the entry is
keyed by `dataTime = (startRecord + r) * dataRecordDuration` (independent of
accumulated gaps) with duration `T - expected`; the duration is added to the
accumulated prior gap for subsequent records; and the gap map deduplicates by
`dataTime`, a second entry at the same key replacing the stored duration
without growing the map. -/
theorem c3_gap_entries (disc : Bool) (dur s0 prior0 : ℚ)
    (eqPrec : ℚ → ℚ → Bool) (ts : List ℚ) (m : List (ℚ × ℚ)) (k v : ℚ)
    (hdur : 0 < dur) (hk : k ∈ m.map Prod.fst) :
    (decodeDataGaps disc dur s0 eqPrec prior0 ts).gaps
        = specGapsFrom disc dur s0 eqPrec prior0 0 ts ∧
    (decodeDataGaps disc dur s0 eqPrec prior0 ts).priorOffset
        = prior0 + durSum (specGapsFrom disc dur s0 eqPrec prior0 0 ts) ∧
    lookupKey (mapSet m k v) k = some v ∧
    (mapSet m k v).length = m.length := by
  have h := gapScan_eq_specGaps disc dur s0 eqPrec hdur ts
    { priorOffset := prior0, startCorrection := 0, gaps := [] } 0
    (by intro g hg; simp at hg)
  exact ⟨by simpa [decodeDataGaps] using h.1,
    by simpa [decodeDataGaps] using h.2,
    lookupKey_mapSet m k v, mapSet_length_of_mem v hk⟩

/-- Witness for C3: a discontinuous three-record run with record starts at
0, 1 and 3 seconds produces exactly the gap entry `(2, 1)`, and `mapSet` on
an existing key replaces without growing. -/
theorem c3_gap_entries_witness :
    (0 : ℚ) < 1 ∧ (2 : ℚ) ∈ ([((2 : ℚ), (5 : ℚ))].map Prod.fst) ∧
    (decodeDataGaps true 1 0 (fun _ _ => false) 0 [0, 1, 3]).gaps
        = specGapsFrom true 1 0 (fun _ _ => false) 0 0 [0, 1, 3] ∧
    lookupKey (mapSet [((2 : ℚ), (5 : ℚ))] 2 7) 2 = some 7 ∧
    (decodeDataGaps true 1 0 (fun _ _ => false) 0 [0, 1, 3]).gaps = [(2, 1)] := by
  have h := c3_gap_entries true 1 0 0 (fun _ _ => false) [0, 1, 3]
    [((2 : ℚ), (5 : ℚ))] 2 7 (by norm_num) (by simp)
  refine ⟨by norm_num, by simp, h.1, h.2.2.1, ?_⟩
  norm_num [decodeDataGaps, gapScan, processRecord, mapSet]

/-! ## C5: the TAL (Timestamped Annotation List) parser
(`getAnnotationFields` in `EdfDecoder.decodeData`, lines 254-333, and the
annotation expansion in lines 421-431).

Bytes are `List ℕ`; `0x14 = 20` ends a field, `0x15 = 21` starts a duration,
`0x00` ends a TAL entry.  The text of the current field is accumulated in
`cur` (the source tracks `fieldStart` and slices; the accumulated bytes are
the same slice).  `parseFloat` is abstracted as a total `pn : List ℕ → ℚ`
(JavaScript's `parseFloat` always returns a number — possibly `NaN` — and no
control flow here depends on its value); `unpackString` is falsy exactly on
the empty slice, which is what raises.  The numeric sentinel
`NUMERIC_ERROR_VALUE` becomes `Option.none`. -/

/-- One recorded TAL field: start time, duration and its text parts. -/
structure TalField where
  startTime : Option ℚ
  duration : Option ℚ
  entries : List (List ℕ)
  deriving Repr, DecidableEq

/-- Parser state of `getAnnotationFields`. -/
structure TalState where
  recordStart : Option ℚ
  startTime : Option ℚ
  duration : Option ℚ
  durationNext : Bool
  entries : List (List ℕ)
  cur : List ℕ
  fields : List TalField
  deriving Repr, DecidableEq

/-- Initial state of `getAnnotationFields` (fresh `fieldProps`, both the
start time and the duration at the numeric error sentinel). -/
def talInit : TalState :=
  { recordStart := none, startTime := none, duration := none
    durationNext := false, entries := [], cur := [], fields := [] }

/-- The scan loop of `getAnnotationFields`.  Mirrors the source: `20` closes
a start-time/duration/text field (with the double-`20` record-start marker
skipping one byte), `21` closes a start time and announces a duration, `0`
records the entry (only when it has at least one text part) and either stops
on a second consecutive `0` or resets the field state. -/
def talScan (pn : List ℕ → ℚ) : TalState → List ℕ → Except Unit TalState
  | st, [] => .ok st
  | st, 20 :: rest =>
      if st.startTime = none then
        if st.cur = [] then .error ()
        else
          let t := pn st.cur
          if st.recordStart = none ∧ rest.head? = some 20 then
            talScan pn
              { st with recordStart := some t, startTime := some t,
                        cur := [] } rest.tail
          else
            talScan pn { st with startTime := some t, cur := [] } rest
      else if st.durationNext then
        if st.cur = [] then .error ()
        else
          talScan pn
            { st with duration := some (pn st.cur), durationNext := false,
                      cur := [] } rest
      else
        talScan pn { st with entries := st.entries ++ [st.cur], cur := [] } rest
  | st, 21 :: rest =>
      if st.cur = [] then .error ()
      else
        talScan pn
          { st with startTime := some (pn st.cur), durationNext := true,
                    cur := [] } rest
  | st, 0 :: rest =>
      let st1 := if st.entries = [] then st
        else { st with fields :=
                st.fields ++ [⟨st.startTime, st.duration, st.entries⟩] }
      if rest.head? = some 0 then .ok st1
      else
        talScan pn
          { st1 with startTime := none, duration := some 0, entries := [],
                     cur := [] } rest
  | st, b :: rest => talScan pn { st with cur := st.cur ++ [b] } rest
  termination_by _ bytes => bytes.length
  decreasing_by all_goals (simp [List.length_tail]; try omega)

/-- An annotation value as assembled in `decodeData` lines 421-431. -/
structure EdfAnnot where
  start : Option ℚ
  duration : ℚ
  label : List ℕ
  deriving Repr, DecidableEq

/-- `Math.max(0, duration)` with the numeric error sentinel (negative)
mapping to 0. -/
def annotDuration (d : Option ℚ) : ℚ :=
  match d with
  | some x => max 0 x
  | none => 0

/-- The annotation expansion of `decodeData` lines 421-431: every text part
of every recorded field yields its own annotation sharing the field's start
time and duration. -/
def expandAnnots (fields : List TalField) : List EdfAnnot :=
  fields.flatMap fun f =>
    f.entries.map fun e => ⟨f.startTime, annotDuration f.duration, e⟩

/-- All annotations produced from one annotation-channel record. -/
def talRecordAnnots (pn : List ℕ → ℚ) (bytes : List ℕ) : List EdfAnnot :=
  match talScan pn talInit bytes with
  | .ok st => expandAnnots st.fields
  | .error _ => []

theorem expandAnnots_length (fs : List TalField) :
    (expandAnnots fs).length = (fs.map (fun f => f.entries.length)).sum := by
  induction fs with
  | nil => simp [expandAnnots]
  | cons f fs ih => simp [expandAnnots] at ih ⊢; omega

/-- The scan never looks past the first two consecutive zero bytes: any
suffix after them is irrelevant. -/
theorem talScan_stop (pn : List ℕ → ℚ) (pre : List ℕ) (st : TalState)
    (suffix : List ℕ) :
    talScan pn st (pre ++ 0 :: 0 :: suffix) = talScan pn st (pre ++ [0, 0]) := by
  suffices H : ∀ (n : ℕ) (pre : List ℕ), pre.length ≤ n → ∀ st : TalState,
      talScan pn st (pre ++ 0 :: 0 :: suffix)
        = talScan pn st (pre ++ [0, 0]) from H pre.length pre le_rfl st
  intro n
  induction n with
  | zero =>
      intro pre hlen st
      have hpre : pre = [] := List.eq_nil_of_length_eq_zero
        (Nat.le_zero.mp hlen)
      subst hpre
      simp [talScan]
  | succ n ih =>
      intro pre hlen st
      cases pre with
      | nil => simp [talScan]
      | cons b pre' =>
          have hlen' : pre'.length ≤ n := by
            simpa using Nat.lt_succ_iff.mp (Nat.lt_of_lt_of_le
              (by simp) hlen)
          by_cases hb0 : b = 0
          · subst hb0
            cases pre' with
            | nil => simp [talScan]
            | cons c pre'' =>
                simp only [List.cons_append, talScan, List.head?_cons]
                by_cases hc : c = 0
                · simp [hc]
                · simp only [Option.some.injEq, if_neg hc]
                  exact ih (c :: pre'') hlen' _
          · by_cases hb20 : b = 20
            · subst hb20
              simp only [List.cons_append, talScan]
              by_cases h1 : st.startTime = none
              · by_cases h2 : st.cur = []
                · simp [h1, h2]
                · simp only [h1, h2, if_true, if_false, if_pos, if_neg,
                    not_false_iff]
                  cases pre' with
                  | nil =>
                      simp only [List.nil_append, List.head?_cons,
                        Option.some.injEq]
                      norm_num
                      exact ih [] (by simp) _
                  | cons c pre'' =>
                      simp only [List.cons_append, List.head?_cons,
                        Option.some.injEq, List.tail_cons]
                      by_cases h3 : st.recordStart = none ∧ c = 20
                      · rw [if_pos h3, if_pos h3]
                        exact ih pre''
                          (by simp at hlen'; omega) _
                      · rw [if_neg h3, if_neg h3]
                        exact ih (c :: pre'') hlen' _
              · rw [if_neg h1, if_neg h1]
                by_cases h2 : st.durationNext = true
                · rw [if_pos h2, if_pos h2]
                  by_cases h3 : st.cur = []
                  · rw [if_pos h3, if_pos h3]
                  · rw [if_neg h3, if_neg h3]
                    exact ih pre' hlen' _
                · rw [if_neg h2, if_neg h2]
                  exact ih pre' hlen' _
            · by_cases hb21 : b = 21
              · subst hb21
                simp only [List.cons_append, talScan]
                by_cases h1 : st.cur = []
                · simp [h1]
                · simp only [if_neg h1]
                  exact ih pre' hlen' _
              · simp only [List.cons_append]
                rw [show talScan pn st (b :: (pre' ++ 0 :: 0 :: suffix))
                      = talScan pn { st with cur := st.cur ++ [b] }
                        (pre' ++ 0 :: 0 :: suffix) by
                    simp [talScan, hb0, hb20, hb21],
                  show talScan pn st (b :: (pre' ++ [0, 0]))
                      = talScan pn { st with cur := st.cur ++ [b] }
                        (pre' ++ [0, 0]) by
                    simp [talScan, hb0, hb20, hb21]]
                exact ih pre' hlen' _

/-- C5 (corrected): every recorded TAL entry yields exactly one annotation per
text field — empty text fields included, each sharing the entry's start time
and duration (an entry is recorded only if it has at least one, possibly
empty, text field); and the record scan stops at the first occurrence of two
consecutive `0x00` bytes (any bytes beyond them are ignored) or at the end of
the buffer. -/
theorem c5_tal_expansion_and_stop (fs : List TalField) (pn : List ℕ → ℚ)
    (pre : List ℕ) (st : TalState) (suffix : List ℕ)
    (a : EdfAnnot) (ha : a ∈ expandAnnots fs)
    (f : TalField) (hf : f ∈ fs) (e : List ℕ) (he : e ∈ f.entries) :
    (expandAnnots fs).length = (fs.map (fun g => g.entries.length)).sum ∧
    (∃ g ∈ fs, a.start = g.startTime ∧ a.duration = annotDuration g.duration ∧
      a.label ∈ g.entries) ∧
    (⟨f.startTime, annotDuration f.duration, e⟩ : EdfAnnot) ∈ expandAnnots fs ∧
    talScan pn st (pre ++ 0 :: 0 :: suffix) = talScan pn st (pre ++ [0, 0]) := by
  refine ⟨expandAnnots_length fs, ?_, ?_, talScan_stop pn pre st suffix⟩
  · rcases List.mem_flatMap.mp ha with ⟨g, hg, hab⟩
    rcases List.mem_map.mp hab with ⟨e', he', hae⟩
    exact ⟨g, hg, by rw [← hae], by rw [← hae], by rw [← hae]; exact he'⟩
  · exact List.mem_flatMap.mpr ⟨f, hf, List.mem_map.mpr ⟨e, he, rfl⟩⟩

/-- Witness for C5 on a concrete field list, parser, and a record whose scan
hits two consecutive zero bytes before a trailing junk byte. -/
theorem c5_tal_expansion_and_stop_witness :
    (expandAnnots [⟨some 1, some 2, [[65], []]⟩]).length
        = ([⟨some 1, some 2, [[65], []]⟩].map
            (fun g : TalField => g.entries.length)).sum ∧
    (⟨some 1, annotDuration (some 2), [65]⟩ : EdfAnnot)
        ∈ expandAnnots [⟨some 1, some 2, [[65], []]⟩] ∧
    talScan (fun _ => 0) talInit ([43, 48, 20, 20] ++ 0 :: 0 :: [99])
        = talScan (fun _ => 0) talInit ([43, 48, 20, 20] ++ [0, 0]) := by
  have h := c5_tal_expansion_and_stop [⟨some 1, some 2, [[65], []]⟩]
    (fun _ => 0) [43, 48, 20, 20] talInit [99]
    ⟨some 1, annotDuration (some 2), [65]⟩
    (by simp [expandAnnots])
    ⟨some 1, some 2, [[65], []]⟩ (by simp) [65] (by simp)
  exact ⟨h.1, h.2.2.1, h.2.2.2⟩

/-- Counterexample to C5 as stated: in the record
`+0<14><14><00>+3<14><14><00><00>` the second TAL entry has a single *empty*
text field, and the parser emits an annotation for it (with empty label)
rather than discarding it. -/
theorem c5_counterexample :
    (talRecordAnnots (fun _ => 0)
        [43, 48, 20, 20, 0, 43, 51, 20, 20, 0, 0]).length = 1 ∧
    (talRecordAnnots (fun _ => 0)
        [43, 48, 20, 20, 0, 43, 51, 20, 20, 0, 0]).map EdfAnnot.label
      = [[]] := by
  constructor <;>
    simp [talRecordAnnots, talScan, talInit, expandAnnots, annotDuration]

/-! ## C6: `EdfDecoder.decodeHeader` error handling (lines 467-685).

ASCII fields are sliced at their fixed offsets, space-trimmed, and parsed
with prefix-parsing `parseInt`/`parseFloat` models (`none` plays the role of
`NaN`).  Only four situations abort with no header: an unsupported data
format, an empty or zero/`NaN` data-record count, an empty or zero/`NaN`
data-record duration, and an empty signal count.  A timestamp parse failure
is caught: the recording date stays `none` and — when the date parsed but the
time field was empty — the caught block re-adds 16 to an offset already
advanced by 8, skewing all later fields by 8 bytes, which the embedding
reproduces. -/

/-- Slice `len` bytes at `off`. -/
def fieldAt (bytes : List ℕ) (off len : ℕ) : List ℕ := (bytes.drop off).take len

/-- JavaScript `trim` restricted to the space padding used by EDF fields. -/
def trimBytes (l : List ℕ) : List ℕ :=
  ((l.dropWhile (fun b => b = 32)).reverse.dropWhile (fun b => b = 32)).reverse

/-- ASCII decimal digits at the head of the list. -/
def takeDigits (l : List ℕ) : List ℕ :=
  l.takeWhile (fun b => decide (48 ≤ b ∧ b ≤ 57))

/-- Value of an ASCII digit string. -/
def digitsToNat (l : List ℕ) : ℕ := l.foldl (fun acc b => acc * 10 + (b - 48)) 0

/-- JavaScript `parseInt` on a trimmed field: optional sign then a digit
prefix; `none` models `NaN` (no digits). -/
def parseIntA (l : List ℕ) : Option ℤ :=
  match l with
  | 45 :: rest =>
      if takeDigits rest = [] then none
      else some (-(digitsToNat (takeDigits rest) : ℤ))
  | 43 :: rest =>
      if takeDigits rest = [] then none
      else some (digitsToNat (takeDigits rest) : ℤ)
  | _ =>
      if takeDigits l = [] then none
      else some (digitsToNat (takeDigits l) : ℤ)

/-- JavaScript `parseFloat` on a trimmed field (decimal grammar, no
exponents, which EDF headers do not use); `none` models `NaN`. -/
def parseFloatA (l : List ℕ) : Option ℚ :=
  let core : List ℕ → Option ℚ := fun l' =>
    let ds := takeDigits l'
    match l'.drop ds.length with
    | 46 :: rest2 =>
        let fs := takeDigits rest2
        if ds = [] ∧ fs = [] then none
        else some ((digitsToNat ds : ℚ) + (digitsToNat fs : ℚ) / 10 ^ fs.length)
    | _ => if ds = [] then none else some (digitsToNat ds : ℚ)
  match l with
  | 45 :: rest => (core rest).map (fun q => -q)
  | 43 :: rest => core rest
  | _ => core l

/-- ASCII upper-casing, as in `reserved.toUpperCase()`. -/
def upperBytes (l : List ℕ) : List ℕ :=
  l.map (fun b => if 97 ≤ b ∧ b ≤ 122 then b - 32 else b)

/-- The trimmed start-date field (offset 168). -/
def dateField (bytes : List ℕ) : List ℕ := trimBytes (fieldAt bytes 168 8)

/-- The trimmed start-time field (offset 176). -/
def timeField (bytes : List ℕ) : List ℕ := trimBytes (fieldAt bytes 176 8)

/-- Offset of the header-record-bytes field: 184, or 192 when the timestamp
try-block threw after the date had been read (empty time field) and the
catch re-added 16 to the already advanced offset. -/
def afterTsOffset (bytes : List ℕ) : ℕ :=
  if dateField bytes ≠ [] ∧ timeField bytes = [] then 192 else 184

/-- The trimmed data-record-count field. -/
def countField (bytes : List ℕ) : List ℕ :=
  trimBytes (fieldAt bytes (afterTsOffset bytes + 52) 8)

/-- The trimmed data-record-duration field. -/
def durField (bytes : List ℕ) : List ℕ :=
  trimBytes (fieldAt bytes (afterTsOffset bytes + 60) 8)

/-- The trimmed signal-count field. -/
def scField (bytes : List ℕ) : List ℕ :=
  trimBytes (fieldAt bytes (afterTsOffset bytes + 68) 4)

/-- Recognised data format: `"0"` (EDF), or first byte `0xFF` with the rest
trimming to `"BIOSEMI"` (BDF); `none` aborts header parsing. -/
def fmtKind (bytes : List ℕ) : Option Bool :=
  if trimBytes (fieldAt bytes 0 8) = [48] then some false
  else if bytes.head? = some 255 ∧
      trimBytes ((fieldAt bytes 0 8).drop 1) = [66, 73, 79, 83, 69, 77, 73]
    then some true
  else none

/-- The `Date` constructor arguments built from the date/time fields
(`dd.mm.yy` and `hh.mm.ss`; two-digit year with the 1985 pivot; month made
zero-based); `none` entries model `NaN` arguments. -/
def mkDateArgs (dateF timeF : List ℕ) : List (Option ℤ) :=
  let d := dateF.splitOn 46
  let t := timeF.splitOn 46
  let y2 := d.getD 2 []
  let yearBytes :=
    match parseIntA y2 with
    | some y => if y ≥ 85 then [49, 57] ++ y2 else [50, 48] ++ y2
    | none => [50, 48] ++ y2
  [parseIntA yearBytes,
   (parseIntA (d.getD 1 [])).map (fun m => m - 1),
   parseIntA (d.getD 0 []),
   parseIntA (t.getD 0 []),
   parseIntA (t.getD 1 []),
   parseIntA (t.getD 2 [])]

/-- The general part of a parsed EDF/BDF header. -/
structure EdfHeaderR where
  isBdf : Bool
  isPlus : Bool
  discontinuous : Bool
  patientId : List ℕ
  localRecordingId : List ℕ
  recordingDate : Option (List (Option ℤ))
  headerRecordBytes : Option ℤ
  dataRecordCount : ℤ
  dataRecordDuration : ℚ
  signalCount : Option ℤ
  reserved : List ℕ
  deriving Repr, DecidableEq

/-- `EdfDecoder.decodeHeader`, general part: the four vital-field failures
return `none`; a timestamp failure leaves `recordingDate = none` (possibly
skewing later offsets, see `afterTsOffset`) and parsing continues. -/
def decodeHeader (bytes : List ℕ) : Option EdfHeaderR :=
  match fmtKind bytes with
  | none => none
  | some bdf =>
    let recordingDate :=
      if dateField bytes = [] ∨ timeField bytes = [] then none
      else some (mkDateArgs (dateField bytes) (timeField bytes))
    let hdrBytesF := trimBytes (fieldAt bytes (afterTsOffset bytes) 8)
    let reserved := trimBytes (fieldAt bytes (afterTsOffset bytes + 8) 44)
    let fmtPlus : List ℕ :=
      if bdf then [66, 68, 70, 43] else [69, 68, 70, 43]
    let isPlus := (upperBytes reserved).take 4 = fmtPlus
    let discont := isPlus ∧ (upperBytes reserved).getD 4 0 = 68
    if countField bytes = [] then none
    else
      match parseIntA (countField bytes) with
      | none => none
      | some cnt =>
        if cnt = 0 then none
        else if durField bytes = [] then none
        else
          match parseFloatA (durField bytes) with
          | none => none
          | some dur =>
            if dur = 0 then none
            else if scField bytes = [] then none
            else some
              { isBdf := bdf
                isPlus := isPlus
                discontinuous := discont
                patientId := trimBytes (fieldAt bytes 8 80)
                localRecordingId := trimBytes (fieldAt bytes 88 80)
                recordingDate := recordingDate
                headerRecordBytes :=
                  if hdrBytesF = [] then none else parseIntA hdrBytesF
                dataRecordCount := cnt
                dataRecordDuration := dur
                signalCount := parseIntA (scField bytes)
                reserved := reserved }

/-- The data-format field is acceptable. -/
def fmtOk (bytes : List ℕ) : Prop := (fmtKind bytes).isSome

/-- The data-record-count field parses to a nonzero integer. -/
def countOk (bytes : List ℕ) : Prop :=
  countField bytes ≠ [] ∧ ∃ c, parseIntA (countField bytes) = some c ∧ c ≠ 0

/-- The data-record-duration field parses to a nonzero number. -/
def durOk (bytes : List ℕ) : Prop :=
  durField bytes ≠ [] ∧ ∃ q, parseFloatA (durField bytes) = some q ∧ q ≠ 0

/-- The signal-count field is present (a non-numeric value only warns). -/
def scOk (bytes : List ℕ) : Prop := scField bytes ≠ []

/-- C6 (confirmed): `decodeHeader` fails (returns no header) precisely when
the data format is unsupported, the data-record count is missing or
zero/`NaN`, the data-record duration is missing or zero/`NaN`, or the signal
count is missing; and whenever it succeeds with an unparseable (empty)
start date or time field, the recording date is left `none` — the timestamp
failure is non-fatal. -/
theorem c6_header_error_handling (bytes : List ℕ) :
    (decodeHeader bytes = none ↔
      ¬ fmtOk bytes ∨ ¬ countOk bytes ∨ ¬ durOk bytes ∨ ¬ scOk bytes) ∧
    (∀ h, decodeHeader bytes = some h →
      (dateField bytes = [] ∨ timeField bytes = []) →
      h.recordingDate = none) := by
  constructor
  · unfold decodeHeader
    rcases hf : fmtKind bytes with _ | bdf
    · simp [fmtOk, hf]
    · dsimp only
      by_cases h1 : countField bytes = []
      · rw [if_pos h1]
        simp [fmtOk, countOk, hf, h1]
      · rw [if_neg h1]
        rcases h2 : parseIntA (countField bytes) with _ | cnt <;> dsimp only
        · simp [fmtOk, countOk, hf, h1, h2]
        · by_cases h3 : cnt = 0
          · rw [if_pos h3]
            simp [fmtOk, countOk, hf, h1, h2, h3]
          · rw [if_neg h3]
            by_cases h4 : durField bytes = []
            · rw [if_pos h4]
              simp [fmtOk, countOk, durOk, hf, h1, h2, h3, h4]
            · rw [if_neg h4]
              rcases h5 : parseFloatA (durField bytes) with _ | dur <;>
                dsimp only
              · simp [fmtOk, countOk, durOk, hf, h1, h2, h3, h4, h5]
              · by_cases h6 : dur = 0
                · rw [if_pos h6]
                  simp [fmtOk, countOk, durOk, hf, h1, h2, h3, h4, h5, h6]
                · rw [if_neg h6]
                  by_cases h7 : scField bytes = []
                  · rw [if_pos h7]
                    simp [fmtOk, countOk, durOk, scOk, hf, h1, h2, h3, h4,
                      h5, h6, h7]
                  · rw [if_neg h7]
                    simp [fmtOk, countOk, durOk, scOk, hf, h1, h2, h3, h4,
                      h5, h6, h7]
  · intro h hsome hts
    unfold decodeHeader at hsome
    rcases hf : fmtKind bytes with _ | bdf <;> rw [hf] at hsome
    · exact absurd hsome (by simp)
    · dsimp only at hsome
      by_cases h1 : countField bytes = []
      · rw [if_pos h1] at hsome; exact absurd hsome (by simp)
      · rw [if_neg h1] at hsome
        rcases h2 : parseIntA (countField bytes) with _ | cnt <;>
          rw [h2] at hsome <;> dsimp only at hsome
        · exact absurd hsome (by simp)
        · by_cases h3 : cnt = 0
          · rw [if_pos h3] at hsome; exact absurd hsome (by simp)
          · rw [if_neg h3] at hsome
            by_cases h4 : durField bytes = []
            · rw [if_pos h4] at hsome; exact absurd hsome (by simp)
            · rw [if_neg h4] at hsome
              rcases h5 : parseFloatA (durField bytes) with _ | dur <;>
                rw [h5] at hsome <;> dsimp only at hsome
              · exact absurd hsome (by simp)
              · by_cases h6 : dur = 0
                · rw [if_pos h6] at hsome; exact absurd hsome (by simp)
                · rw [if_neg h6] at hsome
                  by_cases h7 : scField bytes = []
                  · rw [if_pos h7] at hsome; exact absurd hsome (by simp)
                  · rw [if_neg h7] at hsome
                    have := Option.some.inj hsome
                    rw [← this]
                    simp [if_pos hts]

/-- A concrete 256-byte EDF header whose date and time fields are blank but
whose vital fields are valid (3 records, 1 second each, 2 signals). -/
def c6bytes : List ℕ :=
  [48] ++ List.replicate 235 32 ++ [51] ++ List.replicate 7 32 ++
    [49] ++ List.replicate 7 32 ++ [50] ++ List.replicate 3 32

/-- The header `decodeHeader` produces from `c6bytes`. -/
def c6hdr : EdfHeaderR :=
  { isBdf := false
    isPlus := false
    discontinuous := false
    patientId := []
    localRecordingId := []
    recordingDate := none
    headerRecordBytes := none
    dataRecordCount := 3
    dataRecordDuration := 1
    signalCount := some 2
    reserved := [] }

/-- Witness for C6: on `c6bytes` the header is returned despite the blank
timestamp, and the claim theorem yields `recordingDate = none`. -/
theorem c6_header_error_handling_witness :
    decodeHeader c6bytes = some c6hdr ∧ c6hdr.recordingDate = none := by
  have hfmt : fmtKind c6bytes = some false := by decide
  have hcf : countField c6bytes = [51] := by decide
  have hdf : durField c6bytes = [49] := by decide
  have hsf : scField c6bytes = [50] := by decide
  have hdate : dateField c6bytes = [] := by decide
  have hEq : decodeHeader c6bytes = some c6hdr := by
    simp only [decodeHeader, hfmt, hcf, hdf, hsf, hdate]
    norm_num [parseIntA, parseFloatA, takeDigits, digitsToNat, c6hdr]
    constructor
    · decide
    · decide
  exact ⟨hEq, (c6_header_error_handling c6bytes).2 c6hdr hEq (Or.inl hdate)⟩

/-! ## C7 / C9 / C10: `EdfProcesser` state: `setupStudy` (lines 788-850) and
the request guards of `getSignalPart` (lines 265-288) and `getSignals`
(lines 376-388).

The processer's mutable fields become `ProcState`.  File IO is abstracted:
the discontinuous probe's one-record read of the last data record (per the
spec, `loadPartFromFile` reads exactly the last record, whose record-start
TAL timestamp is `T`) is the `probeT` argument; `none` models a failed load.
The gap extraction the probe performs on that record reuses the
`decodeDataGaps` embedding of `EdfDecoder.decodeData` with
`startRecord = 0` and `priorOffset = 0`, exactly as the source calls it. -/

/-- The format-specific header fields `setupStudy` consumes. -/
structure EdfHeaderM where
  dataRecordCount : ℕ
  dataRecordDuration : ℚ
  discontinuous : Bool
  deriving Repr, DecidableEq

/-- The generic biosignal header fields `setupStudy` consumes. -/
structure GenHeaderM where
  dataRecordCount : ℕ
  dataRecordDuration : ℚ
  dataRecordSize : ℚ
  deriving Repr, DecidableEq

/-- Mutable state of an `EdfProcesser`. -/
structure ProcState where
  mutexInit : Bool
  fallbackCache : Bool
  isMutexReady : Bool
  cacheSet : Bool
  decoderSet : Bool
  header : Option EdfHeaderM
  url : List ℕ
  totalRecordingLength : ℚ
  dataLength : ℚ
  dataUnitSize : ℚ
  annots : List EdfAnnot
  dataGapsCache : List (ℚ × ℚ)
  cacheProcs : ℕ
  deriving Repr, DecidableEq

/-- `EdfProcesser.setupStudy`: rejected only when the signal cache (mutex or
fallback) already exists; otherwise stores the decoder, header and URL,
resets cache processes, runs the discontinuous last-record probe (clearing
the annotation and data-gap caches and deriving `totalRecordingLength` from
the probe gap at data time 0), and finally takes the maximum with
`dataRecordCount * dataRecordDuration`. -/
def setupStudy (st : ProcState) (hdr : GenHeaderM) (edf : EdfHeaderM)
    (url : List ℕ) (probeT : Option ℚ) (eqPrec : ℚ → ℚ → Bool) :
    Bool × ProcState :=
  if st.mutexInit ∨ st.fallbackCache then (false, st)
  else
    let st1 :=
      { st with
        decoderSet := true
        header := some edf
        url := url
        cacheProcs := 0
        dataUnitSize := hdr.dataRecordSize }
    let st2 :=
      if edf.discontinuous then
        match probeT with
        | some T =>
            let probeGaps :=
              (decodeDataGaps true edf.dataRecordDuration 0 eqPrec 0 [T]).gaps
            { st1 with
              annots := []
              dataGapsCache := []
              totalRecordingLength :=
                (lookupKey probeGaps 0).getD 0 + edf.dataRecordDuration }
        | none => st1
      else st1
    (true,
      { st2 with
        totalRecordingLength := max st2.totalRecordingLength
          (hdr.dataRecordCount * hdr.dataRecordDuration),
        dataLength := edf.dataRecordCount * edf.dataRecordDuration })

/-- The duration stored in the processer's header (`0` when unset). -/
def hdrDur (st : ProcState) : ℚ :=
  (st.header.map EdfHeaderM.dataRecordDuration).getD 0

/-- The guard prefix of `EdfProcesser.getSignalPart` (lines 265-288): study
not set up, cache not initiated, zero record duration, start out of bounds,
or an empty/reversed range return `null`; an end beyond the recording is
clamped.  Returns the effective range the rest of the method uses. -/
def getSignalPartGuard (st : ProcState) (start endT : ℚ) : Option (ℚ × ℚ) :=
  if st.decoderSet = false ∨ st.header = none ∨ st.dataUnitSize = 0 then none
  else if st.mutexInit ∧ ¬ st.isMutexReady then none
  else if hdrDur st = 0 then none
  else if start < 0 ∨ start ≥ st.totalRecordingLength then none
  else if start ≥ endT then none
  else some (start,
    if endT > st.totalRecordingLength then st.totalRecordingLength else endT)

/-- The guard prefix of `EdfProcesser.getSignals` (lines 376-388), with the
remainder of the method abstracted as the continuation `rest`; alongside the
optional result the pair carries the resulting processer state and the
number of file reads performed (both untouched — `(st, 0)` — on every guard
exit). -/
def getSignalsGuard {α : Type} (st : ProcState) (r0 r1 : ℚ)
    (rest : ProcState → Option α × ProcState × ℕ) : Option α × ProcState × ℕ :=
  if st.header = none ∨ st.cacheSet = false then (none, st, 0)
  else if st.mutexInit ∧ ¬ st.isMutexReady then (none, st, 0)
  else if r0 = r1 then (none, st, 0)
  else rest st

/-- C7 (confirmed): for a discontinuous recording, `setupStudy` probes only
the last data record; with the record-start TAL timestamp `T` of that record
it sets `totalRecordingLength = max(dataRecordCount * dataRecordDuration,
lastRecordStart + dataRecordDuration)`, and the annotation and data-gap
caches are left empty by the probe. -/
theorem c7_discontinuous_probe (st : ProcState) (hdr : GenHeaderM)
    (edf : EdfHeaderM) (url : List ℕ) (T : ℚ) (eqPrec : ℚ → ℚ → Bool)
    (hnc : ¬ (st.mutexInit = true ∨ st.fallbackCache = true))
    (hdisc : edf.discontinuous = true)
    (hT : 0 ≤ T) (heq : 0 < T → eqPrec T 0 = false) :
    (setupStudy st hdr edf url (some T) eqPrec).1 = true ∧
    (setupStudy st hdr edf url (some T) eqPrec).2.totalRecordingLength
        = max ((hdr.dataRecordCount : ℚ) * hdr.dataRecordDuration)
            (T + edf.dataRecordDuration) ∧
    (setupStudy st hdr edf url (some T) eqPrec).2.annots = [] ∧
    (setupStudy st hdr edf url (some T) eqPrec).2.dataGapsCache = [] := by
  have hlook : ((lookupKey
      (decodeDataGaps true edf.dataRecordDuration 0 eqPrec 0 [T]).gaps
      0).getD 0) = T := by
    rcases eq_or_lt_of_le hT with hzero | hpos
    · subst hzero
      norm_num [decodeDataGaps, gapScan, processRecord, lookupKey]
    · have hb := heq hpos
      norm_num [decodeDataGaps, gapScan, processRecord, mapSet, lookupKey,
        hpos, hb]
  unfold setupStudy
  rw [if_neg hnc]
  simp only [hdisc, if_true]
  rw [hlook]
  exact ⟨trivial, max_comm _ _, trivial, trivial⟩

/-- Witness for C7 at a concrete discontinuous three-record recording whose
last record starts at second 3. -/
theorem c7_discontinuous_probe_witness :
    (setupStudy
      { mutexInit := false, fallbackCache := false, isMutexReady := false,
        cacheSet := false, decoderSet := false, header := none, url := [],
        totalRecordingLength := 0, dataLength := 0, dataUnitSize := 0,
        annots := [], dataGapsCache := [(9, 9)], cacheProcs := 0 }
      ⟨3, 1, 512⟩ ⟨3, 1, true⟩ [1] (some 3) (fun _ _ => false)).2.totalRecordingLength
      = 4 ∧
    (setupStudy
      { mutexInit := false, fallbackCache := false, isMutexReady := false,
        cacheSet := false, decoderSet := false, header := none, url := [],
        totalRecordingLength := 0, dataLength := 0, dataUnitSize := 0,
        annots := [], dataGapsCache := [(9, 9)], cacheProcs := 0 }
      ⟨3, 1, 512⟩ ⟨3, 1, true⟩ [1] (some 3) (fun _ _ => false)).2.dataGapsCache
      = [] := by
  have h := c7_discontinuous_probe
    { mutexInit := false, fallbackCache := false, isMutexReady := false,
      cacheSet := false, decoderSet := false, header := none, url := [],
      totalRecordingLength := 0, dataLength := 0, dataUnitSize := 0,
      annots := [], dataGapsCache := [(9, 9)], cacheProcs := 0 }
    ⟨3, 1, 512⟩ ⟨3, 1, true⟩ [1] 3 (fun _ _ => false)
    (by simp) rfl (by norm_num) (fun _ => rfl)
  refine ⟨?_, h.2.2.2⟩
  rw [h.2.1]
  norm_num

/-- C9 (corrected): `setupStudy` is rejected only once the signal cache
exists: whenever the mutex or the fallback cache has been initialized, a
further `setupStudy` returns `false` and leaves the whole processer state
unchanged.  (Before any cache initialization, a repeated `setupStudy` is
accepted and re-initializes the study, as the counterexample shows.) -/
theorem c9_setup_study_guard (st : ProcState) (hdr : GenHeaderM)
    (edf : EdfHeaderM) (url : List ℕ) (probeT : Option ℚ)
    (eqPrec : ℚ → ℚ → Bool)
    (h : st.mutexInit = true ∨ st.fallbackCache = true) :
    setupStudy st hdr edf url probeT eqPrec = (false, st) := by
  unfold setupStudy
  rw [if_pos h]

/-- Witness for C9 (amended): with the mutex initialized, `setupStudy` is
rejected and the state — URL included — is untouched. -/
theorem c9_setup_study_guard_witness :
    setupStudy
      { mutexInit := true, fallbackCache := false, isMutexReady := true,
        cacheSet := true, decoderSet := true, header := none, url := [7],
        totalRecordingLength := 5, dataLength := 5, dataUnitSize := 2,
        annots := [], dataGapsCache := [], cacheProcs := 0 }
      ⟨1, 1, 2⟩ ⟨1, 1, false⟩ [9] none (fun _ _ => false)
     = (false,
      { mutexInit := true, fallbackCache := false, isMutexReady := true,
        cacheSet := true, decoderSet := true, header := none, url := [7],
        totalRecordingLength := 5, dataLength := 5, dataUnitSize := 2,
        annots := [], dataGapsCache := [], cacheProcs := 0 }) :=
  c9_setup_study_guard _ _ _ _ _ _ (Or.inl rfl)

/-- Counterexample to C9 as stated: after a first successful `setupStudy`
(no cache initialized in between), a second `setupStudy` succeeds instead of
being rejected, and overwrites the stored URL. -/
theorem c9_counterexample :
    (setupStudy
      { mutexInit := false, fallbackCache := false, isMutexReady := false,
        cacheSet := false, decoderSet := false, header := none, url := [],
        totalRecordingLength := 0, dataLength := 0, dataUnitSize := 0,
        annots := [], dataGapsCache := [], cacheProcs := 0 }
      ⟨1, 1, 2⟩ ⟨1, 1, false⟩ [1] none (fun _ _ => false)).1 = true ∧
    (setupStudy
      (setupStudy
        { mutexInit := false, fallbackCache := false, isMutexReady := false,
          cacheSet := false, decoderSet := false, header := none, url := [],
          totalRecordingLength := 0, dataLength := 0, dataUnitSize := 0,
          annots := [], dataGapsCache := [], cacheProcs := 0 }
        ⟨1, 1, 2⟩ ⟨1, 1, false⟩ [1] none (fun _ _ => false)).2
      ⟨1, 1, 2⟩ ⟨1, 1, false⟩ [2] none (fun _ _ => false)).1 = true ∧
    (setupStudy
      (setupStudy
        { mutexInit := false, fallbackCache := false, isMutexReady := false,
          cacheSet := false, decoderSet := false, header := none, url := [],
          totalRecordingLength := 0, dataLength := 0, dataUnitSize := 0,
          annots := [], dataGapsCache := [], cacheProcs := 0 }
        ⟨1, 1, 2⟩ ⟨1, 1, false⟩ [1] none (fun _ _ => false)).2
      ⟨1, 1, 2⟩ ⟨1, 1, false⟩ [2] none (fun _ _ => false)).2.url = [2] := by
  refine ⟨?_, ?_, ?_⟩ <;> simp [setupStudy]

/-- C10 (confirmed): a `getSignals` range whose start equals its end yields
`null` with the state unchanged and no file read (whatever the rest of the
method would do); and `getSignalPart` yields `null` whenever `start ≥ end`
or `start` lies outside `[0, totalRecordingLength)`, while an `end` beyond
`totalRecordingLength` is accepted and clamped to `totalRecordingLength`. -/
theorem c10_empty_range_guards {α : Type} (st : ProcState) (r : ℚ)
    (rest : ProcState → Option α × ProcState × ℕ) (start endT : ℚ)
    (hsetup : ¬ (st.decoderSet = false ∨ st.header = none ∨
      st.dataUnitSize = 0))
    (hmutex : ¬ (st.mutexInit = true ∧ ¬ st.isMutexReady = true))
    (hdurnz : hdrDur st ≠ 0) :
    getSignalsGuard st r r rest = (none, st, 0) ∧
    (start ≥ endT → getSignalPartGuard st start endT = none) ∧
    (start < 0 ∨ start ≥ st.totalRecordingLength →
      getSignalPartGuard st start endT = none) ∧
    (0 ≤ start → start < st.totalRecordingLength → start < endT →
      st.totalRecordingLength < endT →
      getSignalPartGuard st start endT = some (start, st.totalRecordingLength)) := by
  refine ⟨?_, ?_, ?_, ?_⟩
  · unfold getSignalsGuard
    by_cases h1 : st.header = none ∨ st.cacheSet = false
    · rw [if_pos h1]
    · rw [if_neg h1]
      by_cases h2 : st.mutexInit = true ∧ ¬ st.isMutexReady = true
      · rw [if_pos h2]
      · rw [if_neg h2, if_pos rfl]
  · intro hge
    unfold getSignalPartGuard
    rw [if_neg hsetup, if_neg hmutex, if_neg hdurnz]
    by_cases h4 : start < 0 ∨ start ≥ st.totalRecordingLength
    · rw [if_pos h4]
    · rw [if_neg h4, if_pos hge]
  · intro hout
    unfold getSignalPartGuard
    rw [if_neg hsetup, if_neg hmutex, if_neg hdurnz, if_pos hout]
  · intro h0 hlt hse hte
    unfold getSignalPartGuard
    rw [if_neg hsetup, if_neg hmutex, if_neg hdurnz,
      if_neg (by push_neg; exact ⟨h0, hlt⟩), if_neg (not_le.mpr hse),
      if_pos hte]

/-- Witness for C10 at a concrete processer state and ranges. -/
theorem c10_empty_range_guards_witness :
    getSignalsGuard
      { mutexInit := true, fallbackCache := false, isMutexReady := true,
        cacheSet := true, decoderSet := true, header := some ⟨3, 1, false⟩,
        url := [1], totalRecordingLength := 3, dataLength := 3,
        dataUnitSize := 2, annots := [], dataGapsCache := [], cacheProcs := 0 }
      2 2 (fun st => (some 0, st, 5))
      = ((none : Option ℕ),
        { mutexInit := true, fallbackCache := false, isMutexReady := true,
          cacheSet := true, decoderSet := true, header := some ⟨3, 1, false⟩,
          url := [1], totalRecordingLength := 3, dataLength := 3,
          dataUnitSize := 2, annots := [], dataGapsCache := [],
          cacheProcs := 0 }, 0) ∧
    getSignalPartGuard
      { mutexInit := true, fallbackCache := false, isMutexReady := true,
        cacheSet := true, decoderSet := true, header := some ⟨3, 1, false⟩,
        url := [1], totalRecordingLength := 3, dataLength := 3,
        dataUnitSize := 2, annots := [], dataGapsCache := [], cacheProcs := 0 }
      2 2 = none ∧
    getSignalPartGuard
      { mutexInit := true, fallbackCache := false, isMutexReady := true,
        cacheSet := true, decoderSet := true, header := some ⟨3, 1, false⟩,
        url := [1], totalRecordingLength := 3, dataLength := 3,
        dataUnitSize := 2, annots := [], dataGapsCache := [], cacheProcs := 0 }
      1 5 = some (1, 3) := by
  have h := c10_empty_range_guards
    (α := ℕ)
    { mutexInit := true, fallbackCache := false, isMutexReady := true,
      cacheSet := true, decoderSet := true, header := some ⟨3, 1, false⟩,
      url := [1], totalRecordingLength := 3, dataLength := 3,
      dataUnitSize := 2, annots := [], dataGapsCache := [], cacheProcs := 0 }
    2 (fun st => (some 0, st, 5)) 2 2
    (by simp [hdrDur]) (by simp) (by simp [hdrDur])
  have h2 := c10_empty_range_guards
    (α := ℕ)
    { mutexInit := true, fallbackCache := false, isMutexReady := true,
      cacheSet := true, decoderSet := true, header := some ⟨3, 1, false⟩,
      url := [1], totalRecordingLength := 3, dataLength := 3,
      dataUnitSize := 2, annots := [], dataGapsCache := [], cacheProcs := 0 }
    2 (fun st => (some 0, st, 5)) 1 5
    (by simp [hdrDur]) (by simp) (by simp [hdrDur])
  exact ⟨h.1, h.2.1 le_rfl,
    h2.2.2.2 (by norm_num) (by norm_num) (by norm_num) (by norm_num)⟩

/-! ## C8: the awaiter protocol of `getSignals` (EdfProcesser lines 42-43,
416-439) and its release in `loadAndCachePart` (lines 631-636).

The promise/timer machinery becomes a transition system: `getSignals` may
install the single `_awaitData` slot with deadline `now + AWAIT_SIGNALS_TIME`
when the requested range is not yet loaded and a cache process is active; a
completed chunk insert resolves it when the updated range contains the
awaited range; the `setTimeout` resolve fires exactly at the deadline.  The
JavaScript runtime's timer guarantee is encoded as trace validity: time
cannot advance past an armed deadline without the timeout event firing. -/

/-- Milliseconds a `getSignals` caller waits for signals at most
(`AWAIT_SIGNALS_TIME`). -/
def awaitSignalsTime : ℚ := 5000

/-- The `_awaitData` slot: awaited range and the armed timer deadline. -/
structure AwaitData where
  lo : ℚ
  hi : ℚ
  deadline : ℚ
  deriving Repr, DecidableEq

/-- Engine state: the clock, the awaiter slot and the (fixed) total
recording length. -/
structure EngineState where
  now : ℚ
  awaitData : Option AwaitData
  totalLen : ℚ
  deriving Repr, DecidableEq

/-- Events of the awaiter protocol. -/
inductive EngineEv where
  | getSignals (lo hi loadedLo loadedHi : ℚ) (procsActive : Bool)
  | insertDone (uLo uHi : ℚ)
  | timeout
  | tick (dt : ℚ)
  deriving Repr, DecidableEq

/-- The suspend condition of `getSignals` lines 416-421: part of the
requested range (within recording bounds) is not in the loaded range. -/
def needsWait (totalLen lo hi loadedLo loadedHi : ℚ) : Prop :=
  (loadedLo > lo ∧ loadedLo > 0) ∨ (loadedHi < hi ∧ loadedHi < totalLen)

instance (totalLen lo hi loadedLo loadedHi : ℚ) :
    Decidable (needsWait totalLen lo hi loadedLo loadedHi) := by
  unfold needsWait; infer_instance

/-- One step of the awaiter protocol. -/
def engineStep (st : EngineState) : EngineEv → EngineState
  | .getSignals lo hi llo lhi procs =>
      match st.awaitData with
      | some _ => st
      | none =>
          if needsWait st.totalLen lo hi llo lhi ∧ procs then
            { st with awaitData := some ⟨lo, hi, st.now + awaitSignalsTime⟩ }
          else st
  | .insertDone uLo uHi =>
      match st.awaitData with
      | some a =>
          if a.lo ≥ uLo ∧ a.hi ≤ uHi then { st with awaitData := none }
          else st
      | none => st
  | .timeout => { st with awaitData := none }
  | .tick dt => { st with now := st.now + dt }

/-- Runtime validity of an event: time advances positively and never crosses
an armed deadline (the timer would fire), and a timeout fires exactly at the
deadline of an armed awaiter. -/
def validEv (st : EngineState) : EngineEv → Prop
  | .tick dt => 0 < dt ∧ ∀ a, st.awaitData = some a → st.now + dt ≤ a.deadline
  | .timeout => ∃ a, st.awaitData = some a ∧ st.now = a.deadline
  | _ => True

/-- Run a sequence of events. -/
def engineRun (st : EngineState) (evs : List EngineEv) : EngineState :=
  evs.foldl engineStep st

/-- Trace validity. -/
def validTrace : EngineState → List EngineEv → Prop
  | _, [] => True
  | st, e :: es => validEv st e ∧ validTrace (engineStep st e) es

/-- The bounded-wait invariant: an armed awaiter's deadline lies between now
and now + 5000 ms. -/
def awaitInv (st : EngineState) : Prop :=
  ∀ a, st.awaitData = some a →
    st.now ≤ a.deadline ∧ a.deadline ≤ st.now + awaitSignalsTime

theorem awaitInv_step {st : EngineState} {e : EngineEv}
    (hv : validEv st e) (hi : awaitInv st) : awaitInv (engineStep st e) := by
  cases e with
  | getSignals lo hi' llo lhi procs =>
      rcases hwd : st.awaitData with _ | b
      · by_cases hc : needsWait st.totalLen lo hi' llo lhi ∧ procs = true
        · intro a ha
          simp only [engineStep, hwd, if_pos hc, Option.some.injEq] at ha ⊢
          subst ha
          refine ⟨?_, ?_⟩ <;> norm_num [awaitSignalsTime]
        · have hstep : engineStep st (.getSignals lo hi' llo lhi procs)
              = st := by
            simp only [engineStep, hwd]
            rw [if_neg hc]
          intro a ha
          rw [hstep, hwd] at ha
          exact absurd ha (by simp)
      · simp only [engineStep, hwd]
        exact hi
  | insertDone uLo uHi =>
      rcases hwd : st.awaitData with _ | b
      · simp only [engineStep, hwd]
        exact hi
      · by_cases hc : b.lo ≥ uLo ∧ b.hi ≤ uHi
        · intro a ha
          simp only [engineStep, hwd, if_pos hc] at ha
          exact absurd ha (by simp)
        · simp only [engineStep, hwd, if_neg hc]
          exact hi
  | timeout =>
      intro a ha
      simp [engineStep] at ha
  | tick dt =>
      rcases hv with ⟨hdt, hdl⟩
      intro a ha
      simp only [engineStep] at ha ⊢
      refine ⟨hdl a ha, ?_⟩
      have h2 := (hi a ha).2
      linarith

/-- Bounded wait along any valid trace. -/
theorem awaitInv_run (st : EngineState) (evs : List EngineEv) :
    awaitInv st → validTrace st evs → awaitInv (engineRun st evs) := by
  induction evs generalizing st with
  | nil => intro h _; exact h
  | cons e es ih =>
      intro h hv
      exact ih (engineStep st e) (awaitInv_step hv.1 h) hv.2

/-- C8 (confirmed): when a requested range is not yet loaded while a cache
process is active, `getSignals` suspends on the awaiter with deadline
`now + 5000 ms`; a completed chunk insert whose updated range contains the
awaited range (`awaited.lo ≥ updated.lo` and `awaited.hi ≤ updated.hi`)
releases it; the timeout releases it; and along every runtime-valid trace an
armed awaiter never persists past its deadline, which is at most 5000 ms
after the suspension — so the caller is always released by the deadline and
then served from the cache. -/
theorem c8_awaiter_protocol (st : EngineState) (lo hi llo lhi uLo uHi : ℚ)
    (procs : Bool) (a : AwaitData) (evs : List EngineEv)
    (hnone : st.awaitData = none)
    (hw : needsWait st.totalLen lo hi llo lhi) (hp : procs = true)
    (hinv : awaitInv st) (htr : validTrace st evs) :
    (engineStep st (.getSignals lo hi llo lhi procs)).awaitData
        = some ⟨lo, hi, st.now + awaitSignalsTime⟩ ∧
    (∀ st' : EngineState, st'.awaitData = some a → a.lo ≥ uLo → a.hi ≤ uHi →
      (engineStep st' (.insertDone uLo uHi)).awaitData = none) ∧
    (engineStep st .timeout).awaitData = none ∧
    awaitInv (engineRun st evs) := by
  refine ⟨?_, ?_, rfl, awaitInv_run st evs hinv htr⟩
  · simp only [engineStep, hnone]
    rw [if_pos ⟨hw, hp⟩]
  · intro st' ha hlo hhi
    simp only [engineStep, ha]
    rw [if_pos ⟨hlo, hhi⟩]

/-- Witness for C8 on a concrete state and valid trace: a request for
`[2, 4]` with only `[0, 1]` loaded suspends; after one millisecond an insert
covering `[0, 5]` releases the awaiter within the deadline. -/
theorem c8_awaiter_protocol_witness :
    (engineStep ⟨0, none, 10⟩ (.getSignals 2 4 0 1 true)).awaitData
        = some ⟨2, 4, 5000⟩ ∧
    (engineStep ⟨1, some ⟨2, 4, 5000⟩, 10⟩ (.insertDone 0 5)).awaitData
        = none ∧
    awaitInv (engineRun ⟨0, none, 10⟩
      [.getSignals 2 4 0 1 true, .tick 1, .insertDone 0 5]) := by
  have hc : needsWait (10 : ℚ) 2 4 0 1 ∧ (true = true) :=
    ⟨by norm_num [needsWait], rfl⟩
  have htr : validTrace ⟨0, none, 10⟩
      [.getSignals 2 4 0 1 true, .tick 1, .insertDone 0 5] := by
    have hs1 : engineStep ⟨0, none, 10⟩ (.getSignals 2 4 0 1 true)
        = ⟨0, some ⟨2, 4, 5000⟩, 10⟩ := by
      norm_num [engineStep, needsWait, awaitSignalsTime]
    have hs2 : engineStep ⟨0, some ⟨2, 4, 5000⟩, 10⟩ (.tick 1)
        = ⟨1, some ⟨2, 4, 5000⟩, 10⟩ := by
      norm_num [engineStep, EngineState.mk.injEq]
    simp only [validTrace, hs1, hs2, validEv]
    refine ⟨trivial, ⟨by norm_num, ?_⟩, trivial, trivial⟩
    intro a ha
    obtain rfl : (⟨2, 4, 5000⟩ : AwaitData) = a := Option.some.inj ha
    norm_num
  have h := c8_awaiter_protocol ⟨0, none, 10⟩ 2 4 0 1 0 5 true ⟨2, 4, 5000⟩
    [.getSignals 2 4 0 1 true, .tick 1, .insertDone 0 5]
    rfl (by norm_num [needsWait]) rfl
    (by intro a ha; exact absurd ha (by simp)) htr
  refine ⟨?_,
    h.2.1 ⟨1, some ⟨2, 4, 5000⟩, 10⟩ rfl (by norm_num) (by norm_num),
    h.2.2.2⟩
  have h1 := h.1
  simpa [awaitSignalsTime] using h1

/-! ## C1: per-channel assembly in `EdfProcesser.getSignals`
(lines 461-515).

`Float32Array` buffers are `List ℚ`; `TypedArray.set` becomes the
length-preserving `arraySet` (identical on the in-bounds writes the code
performs), `slice` becomes `take`/`drop`, and `Math.round` is `jsRound`.
Sample positions are computed in `ℤ` exactly as the source computes them and
used through `Int.toNat` (the hypotheses of the claim theorem put them in
range, where this is the identity). -/

/-- `TypedArray.set(src, off)` on `dst`: length preserving, writing `src`
into positions `off ≤ i < off + src.length`. -/
def arraySet (dst src : List ℚ) (off : ℕ) : List ℚ :=
  (List.range dst.length).map fun i =>
    if off ≤ i ∧ i < off + src.length then src.getD (i - off) 0
    else dst.getD i 0

@[simp] theorem arraySet_length (dst src : List ℚ) (off : ℕ) :
    (arraySet dst src off).length = dst.length := by
  simp [arraySet]

theorem arraySet_getD (dst src : List ℚ) (off i : ℕ) (h : i < dst.length) :
    (arraySet dst src off).getD i 0 =
      if off ≤ i ∧ i < off + src.length then src.getD (i - off) 0
      else dst.getD i 0 := by
  unfold arraySet
  rw [List.getD_eq_getElem?_getD, List.getElem?_map, List.getElem?_range h]
  simp

/-- One iteration of the gap loop of `getSignals` (lines 490-508): slice the
tail that survives the gap, move it up past the gap end, then zero the gap
span. -/
def applyGap (sig : List ℚ) (sp ep : ℕ) : List ℚ :=
  let len := sig.length
  let remainder := (sig.take (sp + len - ep)).drop sp
  let sig1 := if ep < len then arraySet sig remainder ep else sig
  arraySet sig1 (List.replicate (ep - sp) 0) sp

@[simp] theorem applyGap_length (sig : List ℚ) (sp ep : ℕ) :
    (applyGap sig sp ep).length = sig.length := by
  unfold applyGap
  by_cases h : ep < sig.length <;> simp [h]

theorem applyGap_getD_below (sig : List ℚ) (sp ep p : ℕ)
    (hsp : sp ≤ ep) (hp : p < sp) (hlen : p < sig.length) :
    (applyGap sig sp ep).getD p 0 = sig.getD p 0 := by
  simp only [applyGap]
  by_cases h : ep < sig.length
  · rw [if_pos h, arraySet_getD _ _ _ _ (by simpa using hlen),
      if_neg (by omega), arraySet_getD _ _ _ _ hlen, if_neg (by omega)]
  · rw [if_neg h, arraySet_getD _ _ _ _ hlen, if_neg (by omega)]

theorem applyGap_getD_inside (sig : List ℚ) (sp ep p : ℕ)
    (hge : sp ≤ p) (hlt : p < ep) (hep : ep ≤ sig.length) :
    (applyGap sig sp ep).getD p 0 = 0 := by
  simp only [applyGap]
  by_cases h : ep < sig.length
  · rw [if_pos h, arraySet_getD _ _ _ _ (by simpa using (by omega : p < sig.length)),
      if_pos (by simp; omega)]
    simp
  · rw [if_neg h, arraySet_getD _ _ _ _ (by omega),
      if_pos (by simp; omega)]
    simp

theorem applyGap_getD_above (sig : List ℚ) (sp ep p : ℕ)
    (hsp : sp ≤ ep) (hep : ep ≤ sig.length) (hge : ep ≤ p)
    (hlen : p < sig.length) :
    (applyGap sig sp ep).getD p 0 = sig.getD (p - (ep - sp)) 0 := by
  simp only [applyGap]
  have hlt : ep < sig.length := lt_of_le_of_lt hge hlen
  rw [if_pos hlt]
  have hremlen : ((sig.take (sp + sig.length - ep)).drop sp).length
      = sig.length - ep := by
    simp [List.length_take, List.length_drop]
    omega
  rw [arraySet_getD _ _ _ _ (by simpa using hlen),
    if_neg (by simp only [List.length_replicate]; omega),
    arraySet_getD _ _ _ _ hlen,
    if_pos (by rw [hremlen]; exact ⟨hge, by omega⟩)]
  rw [List.getD_eq_getElem?_getD, List.getD_eq_getElem?_getD,
    List.getElem?_drop,
    List.getElem?_take_of_lt (by omega : sp + (p - ep) < sp + sig.length - ep)]
  have h2 : sp + (p - ep) = p - (ep - sp) := by omega
  rw [h2]

/-- Sample count allocated per channel: `Math.round((range[1]-range[0])*sr)`
(line 477). -/
def sampleCountFor (r0 r1 sr : ℚ) : ℕ := (jsRound ((r1 - r0) * sr)).toNat

/-- `startPos` of a gap (line 491): `Math.round((gap.start - range[0])*sr)`. -/
def gapStartPos (r0 sr : ℚ) (g : ℚ × ℚ) : ℤ := jsRound ((g.1 - r0) * sr)

/-- `endPos` of a gap (lines 492-495): clipped to the buffer end. -/
def gapEndPos (r0 sr : ℚ) (len : ℕ) (g : ℚ × ℚ) : ℤ :=
  min (gapStartPos r0 sr g + jsRound (g.2 * sr))
    (gapStartPos r0 sr g + (len : ℤ))

/-- The `(startPos, endPos)` pairs of the gap loop, as naturals. -/
def gapPosList (r0 sr : ℚ) (len : ℕ) (gaps : List (ℚ × ℚ)) : List (ℕ × ℕ) :=
  gaps.map fun g => ((gapStartPos r0 sr g).toNat, (gapEndPos r0 sr len g).toNat)

/-- The buffer before the gap loop (lines 487-489): zeros overwritten with the
cache slice `[startSignalIndex, endSignalIndex)` at offset 0. -/
def initialFill (cacheStart : ℚ) (data : List ℚ)
    (r0 r1 sr priorGapsTotal innerGapsTotal : ℚ) : List ℚ :=
  let n := sampleCountFor r0 r1 sr
  let rangeStart := r0 - priorGapsTotal
  let rangeEnd := r1 - priorGapsTotal - innerGapsTotal
  let startIdx := (jsRound ((rangeStart - cacheStart) * sr)).toNat
  let endIdx := (jsRound ((rangeEnd - cacheStart) * sr)).toNat
  arraySet (List.replicate n 0) ((data.take endIdx).drop startIdx) 0

/-- One channel of `getSignals` (lines 476-515): all-zero buffer when the
whole range is gap space, otherwise the initial cache fill followed by the
per-gap shift-and-zero loop. -/
def assembleChannel (cacheStart : ℚ) (data : List ℚ)
    (r0 r1 sr priorGapsTotal innerGapsTotal : ℚ)
    (gaps : List (ℚ × ℚ)) : List ℚ :=
  let n := sampleCountFor r0 r1 sr
  let rangeStart := r0 - priorGapsTotal
  let rangeEnd := r1 - priorGapsTotal - innerGapsTotal
  if rangeStart = rangeEnd then List.replicate n 0
  else
    gaps.foldl (fun s g =>
      applyGap s (gapStartPos r0 sr g).toNat (gapEndPos r0 sr s.length g).toNat)
      (initialFill cacheStart data r0 r1 sr priorGapsTotal innerGapsTotal)

/-- Total number of samples shifted out below position `p`: the summed widths
of the gap spans that end at or before `p`. -/
def shiftBefore (l : List (ℕ × ℕ)) (p : ℕ) : ℕ :=
  ((l.filter (fun q => decide (q.2 ≤ p))).map (fun q => q.2 - q.1)).sum

theorem initialFill_length (cacheStart : ℚ) (data : List ℚ)
    (r0 r1 sr priorGapsTotal innerGapsTotal : ℚ) :
    (initialFill cacheStart data r0 r1 sr priorGapsTotal innerGapsTotal).length
      = sampleCountFor r0 r1 sr := by
  simp [initialFill]

theorem shiftBefore_cons (q : ℕ × ℕ) (l : List (ℕ × ℕ)) (p : ℕ) :
    shiftBefore (q :: l) p =
      (if q.2 ≤ p then q.2 - q.1 else 0) + shiftBefore l p := by
  by_cases h : q.2 ≤ p <;> simp [shiftBefore, List.filter_cons, h]

theorem shiftBefore_eq_zero (l : List (ℕ × ℕ)) (p b : ℕ) :
    (∀ q ∈ l, b ≤ q.1) → (∀ q ∈ l, q.1 ≤ q.2) → p < b →
      shiftBefore l p = 0 := by
  induction l with
  | nil => intro _ _ _; simp [shiftBefore]
  | cons q l ih =>
    intro hb hm hp
    rw [shiftBefore_cons]
    have h1 : b ≤ q.1 := hb q (List.mem_cons_self _ _)
    have h2 : q.1 ≤ q.2 := hm q (List.mem_cons_self _ _)
    rw [if_neg (by omega),
      ih (fun r hr => hb r (List.mem_cons_of_mem _ hr))
        (fun r hr => hm r (List.mem_cons_of_mem _ hr)) hp]

theorem chain_firsts (l : List (ℕ × ℕ)) :
    ∀ q : ℕ × ℕ, (∀ r ∈ l, r.1 ≤ r.2) →
      List.Chain (fun x y : ℕ × ℕ => x.2 ≤ y.1) q l →
      ∀ r ∈ l, q.2 ≤ r.1 := by
  induction l with
  | nil => intro q _ _ r hr; simp at hr
  | cons a l ih =>
    intro q hm hc r hr
    rw [List.chain_cons] at hc
    rcases List.mem_cons.mp hr with rfl | hrl
    · exact hc.1
    · have h2 := ih a (fun s hs => hm s (List.mem_cons_of_mem _ hs)) hc.2 r hrl
      have h3 : a.1 ≤ a.2 := hm a (List.mem_cons_self _ _)
      have h4 : q.2 ≤ a.1 := hc.1
      omega

theorem shiftBefore_bound (l : List (ℕ × ℕ)) (p : ℕ) :
    ∀ b, (∀ q ∈ l, b ≤ q.1) → (∀ q ∈ l, q.1 ≤ q.2) →
      l.Chain' (fun x y => x.2 ≤ y.1) →
      b + shiftBefore l p ≤ p ∨ shiftBefore l p = 0 := by
  induction l with
  | nil => intro b _ _ _; right; simp [shiftBefore]
  | cons q l ih =>
    intro b hb hm hc
    have hq1 : b ≤ q.1 := hb q (List.mem_cons_self _ _)
    have hq2 : q.1 ≤ q.2 := hm q (List.mem_cons_self _ _)
    have hb' : ∀ r ∈ l, q.2 ≤ r.1 :=
      chain_firsts l q (fun r hr => hm r (List.mem_cons_of_mem _ hr)) hc
    have hm' : ∀ r ∈ l, r.1 ≤ r.2 := fun r hr => hm r (List.mem_cons_of_mem _ hr)
    have hc' : l.Chain' (fun x y => x.2 ≤ y.1) := hc.tail
    rw [shiftBefore_cons]
    by_cases h : q.2 ≤ p
    · rw [if_pos h]
      rcases ih q.2 hb' hm' hc' with h1 | h1
      · left; omega
      · left; omega
    · rw [if_neg h]
      rcases ih q.2 hb' hm' hc' with h1 | h1
      · right; omega
      · right; simpa using h1

theorem foldl_applyGap_spec (l : List (ℕ × ℕ)) :
    ∀ sig : List ℚ,
      (∀ q ∈ l, q.1 ≤ q.2 ∧ q.2 ≤ sig.length) →
      l.Chain' (fun x y => x.2 ≤ y.1) →
      (l.foldl (fun s q => applyGap s q.1 q.2) sig).length = sig.length ∧
      (∀ p, (∃ q ∈ l, q.1 ≤ p ∧ p < q.2) →
        (l.foldl (fun s q => applyGap s q.1 q.2) sig).getD p 0 = 0) ∧
      (∀ p, p < sig.length → (∀ q ∈ l, ¬(q.1 ≤ p ∧ p < q.2)) →
        (l.foldl (fun s q => applyGap s q.1 q.2) sig).getD p 0
          = sig.getD (p - shiftBefore l p) 0) := by
  induction l with
  | nil =>
    intro sig _ _
    refine ⟨rfl, ?_, ?_⟩
    · intro p hp
      obtain ⟨q, hq, _⟩ := hp
      simp at hq
    · intro p _ _
      simp [shiftBefore]
  | cons q l ih =>
    intro sig hm hc
    have hq := hm q (List.mem_cons_self _ _)
    have hm' : ∀ r ∈ l, r.1 ≤ r.2 ∧ r.2 ≤ (applyGap sig q.1 q.2).length := by
      intro r hr
      rw [applyGap_length]
      exact hm r (List.mem_cons_of_mem _ hr)
    have hc' : l.Chain' (fun x y => x.2 ≤ y.1) := hc.tail
    have hfirst : ∀ r ∈ l, q.2 ≤ r.1 :=
      chain_firsts l q (fun r hr => (hm r (List.mem_cons_of_mem _ hr)).1) hc
    have hmem1 : ∀ r ∈ l, r.1 ≤ r.2 :=
      fun r hr => (hm r (List.mem_cons_of_mem _ hr)).1
    obtain ⟨ihlen, ihzero, ihshift⟩ := ih (applyGap sig q.1 q.2) hm' hc'
    simp only [List.foldl_cons]
    refine ⟨?_, ?_, ?_⟩
    · rw [ihlen, applyGap_length]
    · intro p hp
      obtain ⟨r, hr, hr1, hr2⟩ := hp
      rcases List.mem_cons.mp hr with rfl | hrl
      · have hnot : ∀ s ∈ l, ¬(s.1 ≤ p ∧ p < s.2) := by
          intro s hs hcon
          have := hfirst s hs
          omega
        have hplen : p < (applyGap sig r.1 r.2).length := by
          rw [applyGap_length]
          omega
        rw [ihshift p hplen hnot,
          shiftBefore_eq_zero l p r.2 hfirst hmem1 hr2, Nat.sub_zero]
        exact applyGap_getD_inside sig r.1 r.2 p hr1 hr2 hq.2
      · exact ihzero p ⟨r, hrl, hr1, hr2⟩
    · intro p hplen hnone
      have hnq := hnone q (List.mem_cons_self _ _)
      have hplen' : p < (applyGap sig q.1 q.2).length := by
        rw [applyGap_length]
        exact hplen
      rw [ihshift p hplen'
        (fun s hs => hnone s (List.mem_cons_of_mem _ hs)), shiftBefore_cons]
      by_cases hcase : q.2 ≤ p
      · rw [if_pos hcase]
        have hbound := shiftBefore_bound l p q.2 hfirst hmem1 hc'
        have hq2S : q.2 ≤ p - shiftBefore l p := by
          rcases hbound with h | h <;> omega
        have hpS : p - shiftBefore l p < sig.length := by omega
        rw [applyGap_getD_above sig q.1 q.2 (p - shiftBefore l p)
          hq.1 hq.2 hq2S hpS]
        congr 1
        omega
      · rw [if_neg hcase]
        have hpq1 : p < q.1 := by omega
        rw [shiftBefore_eq_zero l p q.2 hfirst hmem1 (by omega)]
        simp only [Nat.sub_zero, Nat.zero_add]
        exact applyGap_getD_below sig q.1 q.2 p hq.1 hpq1 hplen

theorem foldl_gaps_eq_posList (r0 sr : ℚ) (gaps : List (ℚ × ℚ)) :
    ∀ sig : List ℚ,
      gaps.foldl (fun s g =>
        applyGap s (gapStartPos r0 sr g).toNat
          (gapEndPos r0 sr s.length g).toNat) sig
      = (gapPosList r0 sr sig.length gaps).foldl
          (fun s q => applyGap s q.1 q.2) sig := by
  induction gaps with
  | nil => intro sig; rfl
  | cons g gaps ih =>
    intro sig
    simp only [List.foldl_cons, gapPosList, List.map_cons]
    rw [ih (applyGap sig (gapStartPos r0 sr g).toNat
      (gapEndPos r0 sr sig.length g).toNat)]
    rw [applyGap_length]
    rfl

/-- **C1.** For every successful `getSignals` request (per channel): the
returned signal has exactly `round((range.end - range.start) * samplingRate)`
samples; when the whole range is gap space (`rangeStart = rangeEnd`) the buffer
is all zeros; otherwise every sample position inside a (clipped) gap span holds
zero, and every position outside all gap spans holds the cache-fill sample
shifted down by the summed widths of the gap spans ending at or before it —
the cache fill being the slice read between `rangeStart = range.start -
priorGapsTotal` and `rangeEnd = range.end - priorGapsTotal - innerGapsTotal`.
Hypotheses put the rounded gap positions in order and inside the buffer, as
produced by `getDataGaps` for a range-intersecting gap list. -/
theorem c1_get_signals_assembly (cacheStart : ℚ) (data : List ℚ)
    (r0 r1 sr priorGapsTotal innerGapsTotal : ℚ) (gaps : List (ℚ × ℚ))
    (hm : ∀ q ∈ gapPosList r0 sr (sampleCountFor r0 r1 sr) gaps,
      q.1 ≤ q.2 ∧ q.2 ≤ sampleCountFor r0 r1 sr)
    (hc : (gapPosList r0 sr (sampleCountFor r0 r1 sr) gaps).Chain'
      (fun x y => x.2 ≤ y.1)) :
    (assembleChannel cacheStart data r0 r1 sr priorGapsTotal innerGapsTotal
      gaps).length = sampleCountFor r0 r1 sr ∧
    (r0 - priorGapsTotal = r1 - priorGapsTotal - innerGapsTotal →
      assembleChannel cacheStart data r0 r1 sr priorGapsTotal innerGapsTotal
        gaps = List.replicate (sampleCountFor r0 r1 sr) 0) ∧
    (r0 - priorGapsTotal ≠ r1 - priorGapsTotal - innerGapsTotal →
      ∀ p, (∃ q ∈ gapPosList r0 sr (sampleCountFor r0 r1 sr) gaps,
          q.1 ≤ p ∧ p < q.2) →
        (assembleChannel cacheStart data r0 r1 sr priorGapsTotal
          innerGapsTotal gaps).getD p 0 = 0) ∧
    (r0 - priorGapsTotal ≠ r1 - priorGapsTotal - innerGapsTotal →
      ∀ p, p < sampleCountFor r0 r1 sr →
        (∀ q ∈ gapPosList r0 sr (sampleCountFor r0 r1 sr) gaps,
          ¬(q.1 ≤ p ∧ p < q.2)) →
        (assembleChannel cacheStart data r0 r1 sr priorGapsTotal
          innerGapsTotal gaps).getD p 0
          = (initialFill cacheStart data r0 r1 sr priorGapsTotal
              innerGapsTotal).getD
              (p - shiftBefore
                (gapPosList r0 sr (sampleCountFor r0 r1 sr) gaps) p) 0) := by
  have hfill := initialFill_length cacheStart data r0 r1 sr priorGapsTotal
    innerGapsTotal
  by_cases hre : r0 - priorGapsTotal = r1 - priorGapsTotal - innerGapsTotal
  · have hasm : assembleChannel cacheStart data r0 r1 sr priorGapsTotal
        innerGapsTotal gaps = List.replicate (sampleCountFor r0 r1 sr) 0 := by
      simp only [assembleChannel]
      rw [if_pos hre]
    exact ⟨by rw [hasm]; simp, fun _ => hasm,
      fun h => absurd hre h, fun h => absurd hre h⟩
  · have hasm : assembleChannel cacheStart data r0 r1 sr priorGapsTotal
        innerGapsTotal gaps
        = (gapPosList r0 sr (sampleCountFor r0 r1 sr) gaps).foldl
            (fun s q => applyGap s q.1 q.2)
            (initialFill cacheStart data r0 r1 sr priorGapsTotal
              innerGapsTotal) := by
      simp only [assembleChannel]
      rw [if_neg hre, foldl_gaps_eq_posList r0 sr gaps
        (initialFill cacheStart data r0 r1 sr priorGapsTotal innerGapsTotal),
        hfill]
    obtain ⟨hlen, hzero, hshift⟩ :=
      foldl_applyGap_spec (gapPosList r0 sr (sampleCountFor r0 r1 sr) gaps)
        (initialFill cacheStart data r0 r1 sr priorGapsTotal innerGapsTotal)
        (by intro q hq; rw [hfill]; exact hm q hq)
        hc
    refine ⟨?_, fun h => absurd h hre, fun _ p hp => ?_,
      fun _ p hplen hnone => ?_⟩
    · rw [hasm, hlen, hfill]
    · rw [hasm]
      exact hzero p hp
    · rw [hasm]
      exact hshift p (by rw [hfill]; exact hplen) hnone

/-- Witness for C1: cache `[1,2,3,4,5,6,7,8]` at start `0`, range `[0,1]` at
8 Hz, one quarter-second gap at recording time `1/4`. The buffer has 8
samples, positions 2-3 are the zeroed gap span, and position 5 holds the
cache-fill sample from position 3 (tail shifted past the gap): the result is
`[1,2,0,0,3,4,5,6]`. -/
theorem c1_get_signals_assembly_witness :
    (assembleChannel 0 [1,2,3,4,5,6,7,8] 0 1 8 0 (1/4)
      [(1/4, 1/4)]).length = 8 ∧
    (assembleChannel 0 [1,2,3,4,5,6,7,8] 0 1 8 0 (1/4)
      [(1/4, 1/4)]).getD 2 0 = 0 ∧
    (assembleChannel 0 [1,2,3,4,5,6,7,8] 0 1 8 0 (1/4)
      [(1/4, 1/4)]).getD 5 0 = 4 := by
  have hn : sampleCountFor 0 1 8 = 8 := by
    norm_num [sampleCountFor, jsRound]
    decide
  have hpos : gapPosList 0 8 (sampleCountFor 0 1 8) [(1/4, 1/4)]
      = [(2, 4)] := by
    rw [hn]
    norm_num [gapPosList, gapStartPos, gapEndPos, jsRound]
    decide
  have H := c1_get_signals_assembly 0 [1,2,3,4,5,6,7,8] 0 1 8 0 (1/4)
    [(1/4, 1/4)]
    (by rw [hpos, hn]; decide)
    (by rw [hpos]; simp)
  have hne : (0 : ℚ) - 0 ≠ 1 - 0 - 1/4 := by norm_num
  have hfill3 : (initialFill 0 [1,2,3,4,5,6,7,8] 0 1 8 0 (1/4)).getD 3 0
      = 4 := by
    have hs : (jsRound ((0 - (0 : ℚ) - 0) * 8)).toNat = 0 := by
      norm_num [jsRound]
    have he : (jsRound ((1 - (0 : ℚ) - 1/4 - 0) * 8)).toNat = 6 := by
      norm_num [jsRound]
      decide
    simp only [initialFill, hs, he, hn]
    rw [arraySet_getD _ _ _ 3 (by simp)]
    norm_num [List.getD]
  refine ⟨H.1.trans hn, ?_, ?_⟩
  · exact H.2.2.1 hne 2 ⟨(2, 4), by rw [hpos]; decide, by decide⟩
  · have h3 := H.2.2.2 hne 5 (by rw [hn]; decide) (by rw [hpos]; decide)
    rw [hpos] at h3
    have hsh : shiftBefore [(2, 4)] 5 = 2 := by decide
    rw [hsh] at h3
    exact h3.trans hfill3

/-! ## C4: recording-time / cache-time round trip (worker,
`src/unnamed/part_005`).

The worker state `RECORDING` is a `Recording` record; its gap map stores
`(dataTime, duration)` pairs in data/cache time, in ascending key order, as
`cacheNewDataGaps` maintains it. `NUMERIC_ERROR_VALUE` returns become
`Option.none`. -/

structure Recording where
  dataRecordDuration : ℚ
  dataRecordCount : ℕ
  discontinuous : Bool
  dataGaps : List (ℚ × ℚ)
  dataLength : ℚ
  totalLength : ℚ

/-- The gap-walking loop of `getDataGaps` (lines 565-591): `gapTime` is the
gap's recording-time start (key plus prior gap durations); gaps are clipped to
`[s, e)` and the walk breaks at the first gap not intersecting it. -/
def getDataGapsAux (s e : ℚ) : List (ℚ × ℚ) → ℚ → List (ℚ × ℚ)
  | [], _ => []
  | g :: rest, prior =>
    let gapTime := g.1 + prior
    if gapTime + g.2 ≤ s then getDataGapsAux s e rest (prior + g.2)
    else if gapTime < s ∧ gapTime + g.2 > s then
      if gapTime + g.2 < e then
        (s, gapTime + g.2 - s) :: getDataGapsAux s e rest (prior + g.2)
      else [(s, e - s)]
    else if s ≤ gapTime ∧ gapTime < e then
      if gapTime + g.2 < e then
        (gapTime, g.2) :: getDataGapsAux s e rest (prior + g.2)
      else [(gapTime, e - gapTime)]
    else []

/-- `getDataGaps([r0, r1])` (lines 545-591): end clamped to `totalLength`;
empty when `r0 < 0` or the window is shorter than one data record. -/
def getDataGaps (rec : Recording) (r0 r1 : ℚ) : List (ℚ × ℚ) :=
  let e := min r1 rec.totalLength
  if r0 < 0 then []
  else if r0 ≥ e - rec.dataRecordDuration then []
  else getDataGapsAux r0 e rec.dataGaps 0

/-- `getGapTimeBetween` (lines 593-602). -/
def getGapTimeBetween (rec : Recording) (s e : ℚ) : ℚ :=
  if rec.discontinuous = false then 0
  else durSum (getDataGaps rec s e)

/-- Summed durations of the gaps whose data-time key precedes `c`: the
`priorGapsTotal` loop of `dataRecordIndexToTime` (lines 494-499). -/
def sumDursBefore (c : ℚ) (l : List (ℚ × ℚ)) : ℚ :=
  durSum (l.filter (fun g => decide (g.1 < c)))

/-- `dataRecordIndexToTime` (lines 480-501). -/
def dataRecordIndexToTime (rec : Recording) (idx : ℚ) : Option ℚ :=
  if idx < 0 ∨ idx > (rec.dataRecordCount : ℚ) then none
  else some (idx * rec.dataRecordDuration
    + sumDursBefore (idx * rec.dataRecordDuration) rec.dataGaps)

/-- `recordingTimeToCacheTime` (lines 1057-1079). -/
def recordingTimeToCacheTime (rec : Recording) (t : ℚ) : Option ℚ :=
  if t < 0 ∨ t > rec.totalLength then none
  else if t = 0 ∨ rec.discontinuous = false then some t
  else some (t - getGapTimeBetween rec 0 t)

/-- `cacheTimeToRecordingTime` (lines 452-473). -/
def cacheTimeToRecordingTime (rec : Recording) (t : ℚ) : Option ℚ :=
  if t < 0 ∨ t > rec.dataLength then none
  else if t = 0 ∨ rec.discontinuous = false then some t
  else dataRecordIndexToTime rec (t / rec.dataRecordDuration)

/-- Recording-time positions of the gaps: key plus accumulated prior
durations, starting from offset `p`. -/
def gapPositions (p : ℚ) : List (ℚ × ℚ) → List (ℚ × ℚ)
  | [] => []
  | g :: rest => (g.1 + p, g.2) :: gapPositions (p + g.2) rest

/-- Total duration of the gaps wholly at or before recording time `t`
(`t` measured from offset zero, successive gaps handled by shifting `t`). -/
def coveredDur (t : ℚ) : List (ℚ × ℚ) → ℚ
  | [] => 0
  | g :: rest => if g.1 + g.2 ≤ t then g.2 + coveredDur (t - g.2) rest else 0

theorem gapPositions_eq_map (l : List (ℚ × ℚ)) :
    ∀ p : ℚ, gapPositions p l
      = (gapPositions 0 l).map (fun q => (q.1 + p, q.2)) := by
  induction l with
  | nil => intro p; rfl
  | cons g rest ih =>
    intro p
    simp only [gapPositions, List.map_cons]
    rw [ih (p + g.2), ih (0 + g.2)]
    refine congrArg₂ List.cons (by norm_num) ?_
    rw [List.map_map]
    refine List.map_congr_left ?_
    intro q _
    simp only [Function.comp]
    refine congrArg₂ Prod.mk ?_ rfl
    ring

theorem coveredDur_eq_zero (t : ℚ) (l : List (ℚ × ℚ))
    (hk : ∀ g ∈ l, t ≤ g.1) (hd : ∀ g ∈ l, 0 < g.2) :
    coveredDur t l = 0 := by
  cases l with
  | nil => rfl
  | cons g rest =>
    have h1 := hk g (List.mem_cons_self _ _)
    have h2 := hd g (List.mem_cons_self _ _)
    simp only [coveredDur]
    rw [if_neg (by linarith)]

theorem coveredDur_lt (l : List (ℚ × ℚ)) :
    ∀ b t : ℚ, (∀ q ∈ l, b < q.1) → (∀ q ∈ l, 0 < q.2) →
      l.Pairwise (fun a c => a.1 < c.1) → 0 < t - b →
      coveredDur t l < t - b := by
  induction l with
  | nil =>
    intro b t _ _ _ h
    simpa [coveredDur] using h
  | cons g rest ih =>
    intro b t hb hd hp ht
    have hgb := hb g (List.mem_cons_self _ _)
    have hgd := hd g (List.mem_cons_self _ _)
    have hrest : ∀ q ∈ rest, g.1 < q.1 := fun q hq =>
      (List.pairwise_cons.mp hp).1 q hq
    have hdrest : ∀ q ∈ rest, 0 < q.2 := fun q hq =>
      hd q (List.mem_cons_of_mem _ hq)
    have hprest := (List.pairwise_cons.mp hp).2
    simp only [coveredDur]
    by_cases hc : g.1 + g.2 ≤ t
    · rw [if_pos hc]
      by_cases he : g.1 + g.2 = t
      · have hz : coveredDur (t - g.2) rest = 0 :=
          coveredDur_eq_zero _ _
            (fun q hq => by have := hrest q hq; linarith) hdrest
        rw [hz]
        linarith
      · have hlt : g.1 + g.2 < t := lt_of_le_of_ne hc he
        have := ih g.1 (t - g.2) hrest hdrest hprest (by linarith)
        linarith
    · rw [if_neg hc]
      linarith

theorem sumDursBefore_cons (c : ℚ) (g : ℚ × ℚ) (l : List (ℚ × ℚ)) :
    sumDursBefore c (g :: l)
      = (if g.1 < c then g.2 else 0) + sumDursBefore c l := by
  by_cases h : g.1 < c <;> simp [sumDursBefore, List.filter_cons, h]

theorem sumDursBefore_eq_zero (c : ℚ) (l : List (ℚ × ℚ))
    (h : ∀ g ∈ l, c ≤ g.1) : sumDursBefore c l = 0 := by
  induction l with
  | nil => rfl
  | cons g rest ih =>
    rw [sumDursBefore_cons,
      if_neg (by have := h g (List.mem_cons_self _ _); linarith),
      ih (fun q hq => h q (List.mem_cons_of_mem _ hq))]
    ring

theorem covered_props (l : List (ℚ × ℚ)) :
    ∀ t : ℚ,
      (∀ g ∈ l, 0 ≤ g.1 ∧ 0 < g.2) →
      l.Pairwise (fun a c => a.1 < c.1) →
      (∀ q ∈ gapPositions 0 l, ¬(q.1 < t ∧ t ≤ q.1 + q.2)) →
      sumDursBefore (t - coveredDur t l) l = coveredDur t l ∧
      (0 < t → coveredDur t l < t) ∧
      (coveredDur t l = durSum l ∨ ∃ g ∈ l, t - coveredDur t l ≤ g.1) := by
  induction l with
  | nil =>
    intro t _ _ _
    exact ⟨by simp [sumDursBefore, coveredDur], fun ht => by simpa [coveredDur],
      Or.inl (by simp [coveredDur])⟩
  | cons g rest ih =>
    intro t hm hp hni
    have hg := hm g (List.mem_cons_self _ _)
    have hni0 : ¬(g.1 < t ∧ t ≤ g.1 + g.2) := by
      have := hni (g.1 + 0, g.2) (by simp [gapPositions])
      simpa using this
    have hm' : ∀ q ∈ rest, 0 ≤ q.1 ∧ 0 < q.2 := fun q hq =>
      hm q (List.mem_cons_of_mem _ hq)
    have hrest : ∀ q ∈ rest, g.1 < q.1 := fun q hq =>
      (List.pairwise_cons.mp hp).1 q hq
    have hprest := (List.pairwise_cons.mp hp).2
    have hdrest : ∀ q ∈ rest, 0 < q.2 := fun q hq => (hm' q hq).2
    have hni' : ∀ q ∈ gapPositions 0 rest,
        ¬(q.1 < t - g.2 ∧ t - g.2 ≤ q.1 + q.2) := by
      intro q hq hcon
      have hqm : (q.1 + (0 + g.2), q.2) ∈ gapPositions (0 + g.2) rest := by
        rw [gapPositions_eq_map rest (0 + g.2)]
        exact List.mem_map_of_mem _ hq
      have hmem : (q.1 + (0 + g.2), q.2) ∈ gapPositions 0 (g :: rest) := by
        simp only [gapPositions, List.mem_cons]
        exact Or.inr hqm
      exact hni _ hmem ⟨by simpa using by linarith [hcon.1],
        by simpa using by linarith [hcon.2]⟩
    by_cases hc : g.1 + g.2 ≤ t
    · have hC : coveredDur t (g :: rest)
          = g.2 + coveredDur (t - g.2) rest := by
        simp only [coveredDur]
        rw [if_pos hc]
      have hstrict : g.1 + g.2 < t :=
        lt_of_le_of_ne hc (fun he => hni0 ⟨by linarith [hg.2], le_of_eq he.symm⟩)
      have hC'lt : coveredDur (t - g.2) rest < (t - g.2) - g.1 :=
        coveredDur_lt rest g.1 (t - g.2) hrest hdrest hprest (by linarith)
      obtain ⟨ihmain, ihlt, ihbound⟩ := ih (t - g.2) hm' hprest hni'
      refine ⟨?_, ?_, ?_⟩
      · rw [hC, sumDursBefore_cons, if_pos (by linarith)]
        rw [show t - (g.2 + coveredDur (t - g.2) rest)
            = (t - g.2) - coveredDur (t - g.2) rest from by ring, ihmain]
      · intro _
        rw [hC]
        linarith [hg.1]
      · rcases ihbound with hb | ⟨q, hq, hle⟩
        · exact Or.inl (by rw [hC, hb, durSum_cons])
        · refine Or.inr ⟨q, List.mem_cons_of_mem _ hq, ?_⟩
          rw [hC]
          linarith
    · have hC : coveredDur t (g :: rest) = 0 := by
        simp only [coveredDur]
        rw [if_neg hc]
      have htle : t ≤ g.1 := by
        by_contra hco
        push_neg at hco
        exact hni0 ⟨hco, by linarith⟩
      refine ⟨?_, fun ht => by rw [hC]; exact ht, ?_⟩
      · rw [hC, sub_zero]
        refine sumDursBefore_eq_zero t (g :: rest) ?_
        intro q hq
        rcases List.mem_cons.mp hq with rfl | hq'
        · exact htle
        · have := hrest q hq'
          linarith
      · refine Or.inr ⟨g, List.mem_cons_self _ _, ?_⟩
        rw [hC]
        linarith

theorem durSum_getDataGapsAux (t : ℚ) (l : List (ℚ × ℚ)) :
    ∀ p : ℚ, 0 ≤ p →
      (∀ g ∈ l, 0 ≤ g.1 ∧ 0 < g.2) →
      (∀ q ∈ gapPositions p l, ¬(q.1 < t ∧ t ≤ q.1 + q.2)) →
      durSum (getDataGapsAux 0 t l p) = coveredDur (t - p) l := by
  induction l with
  | nil =>
    intro p _ _ _
    simp [getDataGapsAux, coveredDur]
  | cons g rest ih =>
    intro p hp hm hni
    have hg := hm g (List.mem_cons_self _ _)
    have hni0 : ¬(g.1 + p < t ∧ t ≤ g.1 + p + g.2) := by
      have := hni (g.1 + p, g.2) (by simp [gapPositions])
      simpa using this
    have hm' : ∀ q ∈ rest, 0 ≤ q.1 ∧ 0 < q.2 := fun q hq =>
      hm q (List.mem_cons_of_mem _ hq)
    have hni' : ∀ q ∈ gapPositions (p + g.2) rest,
        ¬(q.1 < t ∧ t ≤ q.1 + q.2) := by
      intro q hq
      refine hni q ?_
      simp only [gapPositions, List.mem_cons]
      exact Or.inr hq
    simp only [getDataGapsAux]
    rw [if_neg (by push_neg; linarith [hg.1, hg.2]),
      if_neg (fun hcon => by linarith [hcon.1, hg.1])]
    by_cases h3 : 0 ≤ g.1 + p ∧ g.1 + p < t
    · rw [if_pos h3]
      by_cases h4 : g.1 + p + g.2 < t
      · rw [if_pos h4, durSum_cons,
          ih (p + g.2) (by linarith [hg.2]) hm' hni']
        simp only [coveredDur]
        rw [if_pos (by linarith),
          show t - (p + g.2) = t - p - g.2 from by ring]
      · exact absurd ⟨h3.2, by linarith⟩ hni0
    · rw [if_neg h3]
      have hge : t ≤ g.1 + p := by
        by_contra hco
        push_neg at hco
        exact h3 ⟨by linarith [hg.1], hco⟩
      simp only [coveredDur, durSum_nil]
      rw [if_neg (by intro hcon; linarith [hg.2])]

theorem durSum_nonneg (l : List (ℚ × ℚ)) (h : ∀ g ∈ l, 0 < g.2) :
    0 ≤ durSum l := by
  induction l with
  | nil => simp
  | cons g rest ih =>
    rw [durSum_cons]
    have h1 := h g (List.mem_cons_self _ _)
    have h2 := ih (fun q hq => h q (List.mem_cons_of_mem _ hq))
    linarith

/-- **C4 (amended).** For a consistent worker state (positive record duration,
`dataLength = dataRecordCount * dataRecordDuration`, `totalLength =
dataLength + Σ gap durations`, at least one record, gap keys in
`[0, dataLength]` in strictly ascending order with positive durations, no
gaps when continuous), and every recording time `t ∈ [0, totalRecordingLength]`
that does not fall in the half-open recording-time span
`(gapStart, gapStart + duration]` of any data gap — gap *end* points excluded,
not only interior points — and such that, if `t ≤ dataRecordDuration`, no gap
lies before `t` (the `getDataGaps` minimum-window guard ignores gaps there):
converting recording time to cache time and back returns `t`. -/
theorem c4_time_round_trip (rec : Recording) (t : ℚ)
    (hdur : 0 < rec.dataRecordDuration)
    (hdl : rec.dataLength = (rec.dataRecordCount : ℚ) * rec.dataRecordDuration)
    (htl : rec.totalLength = rec.dataLength + durSum rec.dataGaps)
    (hcnt : 1 ≤ rec.dataRecordCount)
    (hgaps : ∀ g ∈ rec.dataGaps, 0 ≤ g.1 ∧ g.1 ≤ rec.dataLength ∧ 0 < g.2)
    (hsorted : rec.dataGaps.Pairwise (fun a c => a.1 < c.1))
    (hdisc : rec.discontinuous = false → rec.dataGaps = [])
    (ht0 : 0 ≤ t) (ht1 : t ≤ rec.totalLength)
    (hni : ∀ q ∈ gapPositions 0 rec.dataGaps, ¬(q.1 < t ∧ t ≤ q.1 + q.2))
    (hsmall : t ≤ rec.dataRecordDuration → ∀ g ∈ rec.dataGaps, t ≤ g.1) :
    (recordingTimeToCacheTime rec t).bind (cacheTimeToRecordingTime rec)
      = some t := by
  have hcq : (1 : ℚ) ≤ (rec.dataRecordCount : ℚ) := by exact_mod_cast hcnt
  have hdle : rec.dataRecordDuration ≤ rec.dataLength := by
    have := mul_le_mul_of_nonneg_right hcq hdur.le
    rw [hdl]
    linarith
  have hdlpos : 0 < rec.dataLength := lt_of_lt_of_le hdur hdle
  have hsum0 : 0 ≤ durSum rec.dataGaps :=
    durSum_nonneg _ (fun g hg => (hgaps g hg).2.2)
  by_cases ht0' : t = 0
  · subst ht0'
    rw [recordingTimeToCacheTime,
      if_neg (by push_neg; exact ⟨le_refl 0, by linarith⟩),
      if_pos (Or.inl rfl)]
    show cacheTimeToRecordingTime rec 0 = some 0
    rw [cacheTimeToRecordingTime,
      if_neg (by push_neg; exact ⟨le_refl 0, by linarith⟩),
      if_pos (Or.inl rfl)]
  by_cases hdf : rec.discontinuous = false
  · have hgnil := hdisc hdf
    rw [recordingTimeToCacheTime, if_neg (by push_neg; exact ⟨ht0, ht1⟩),
      if_pos (Or.inr hdf)]
    show cacheTimeToRecordingTime rec t = some t
    have htdl : t ≤ rec.dataLength := by
      rw [htl, hgnil] at ht1
      simpa using ht1
    rw [cacheTimeToRecordingTime, if_neg (by push_neg; exact ⟨ht0, htdl⟩),
      if_pos (Or.inr hdf)]
  have hdt : rec.discontinuous = true := by
    cases hb : rec.discontinuous with
    | false => exact absurd hb hdf
    | true => rfl
  have htpos : 0 < t := lt_of_le_of_ne ht0 (Ne.symm ht0')
  have hdne : rec.discontinuous ≠ false := by
    rw [hdt]
    simp
  by_cases hts : t ≤ rec.dataRecordDuration
  · have hGdef : getGapTimeBetween rec 0 t = 0 := by
      rw [getGapTimeBetween, if_neg hdne]
      simp only [getDataGaps]
      rw [if_neg (by norm_num),
        if_pos (by have := min_le_left t rec.totalLength; linarith)]
      simp
    rw [recordingTimeToCacheTime, if_neg (by push_neg; exact ⟨ht0, ht1⟩),
      if_neg (by push_neg; exact ⟨ht0', hdne⟩)]
    rw [hGdef, sub_zero]
    show cacheTimeToRecordingTime rec t = some t
    rw [cacheTimeToRecordingTime,
      if_neg (by push_neg; exact ⟨ht0, by linarith⟩),
      if_neg (by push_neg; exact ⟨ht0', hdne⟩),
      dataRecordIndexToTime,
      if_neg (by
        push_neg
        refine ⟨div_nonneg ht0 hdur.le, ?_⟩
        rw [div_le_iff hdur]
        have : t ≤ (rec.dataRecordCount : ℚ) * rec.dataRecordDuration := by
          rw [← hdl]
          linarith
        linarith)]
    rw [div_mul_cancel₀ t (ne_of_gt hdur),
      sumDursBefore_eq_zero t _ (hsmall hts), add_zero]
  · push_neg at hts
    have hmg : ∀ g ∈ rec.dataGaps, 0 ≤ g.1 ∧ 0 < g.2 :=
      fun g hg => ⟨(hgaps g hg).1, (hgaps g hg).2.2⟩
    have hauxG : getGapTimeBetween rec 0 t = coveredDur t rec.dataGaps := by
      rw [getGapTimeBetween, if_neg hdne]
      simp only [getDataGaps]
      rw [min_eq_left ht1, if_neg (by norm_num),
        if_neg (by push_neg; linarith),
        durSum_getDataGapsAux t rec.dataGaps 0 le_rfl hmg hni, sub_zero]
    obtain ⟨hmain, hltC, hbound⟩ :=
      covered_props rec.dataGaps t hmg hsorted hni
    have hClt : coveredDur t rec.dataGaps < t := hltC htpos
    have hcle : t - coveredDur t rec.dataGaps ≤ rec.dataLength := by
      rcases hbound with hb | ⟨g, hg, hle⟩
      · rw [hb]
        linarith
      · exact le_trans hle (hgaps g hg).2.1
    rw [recordingTimeToCacheTime, if_neg (by push_neg; exact ⟨ht0, ht1⟩),
      if_neg (by push_neg; exact ⟨ht0', hdne⟩), hauxG]
    show cacheTimeToRecordingTime rec (t - coveredDur t rec.dataGaps) = some t
    rw [cacheTimeToRecordingTime,
      if_neg (by push_neg; exact ⟨by linarith, hcle⟩),
      if_neg (by push_neg; exact ⟨ne_of_gt (by linarith), hdne⟩),
      dataRecordIndexToTime,
      if_neg (by
        push_neg
        refine ⟨div_nonneg (by linarith) hdur.le, ?_⟩
        rw [div_le_iff hdur, ← hdl]
        exact hcle),
      div_mul_cancel₀ _ (ne_of_gt hdur), hmain]
    rw [sub_add_cancel]

/-- Fixed worker state for C4: three one-second records with a one-second gap
keyed at data time 2, so the gap's recording-time span is `(2, 3]` and
`totalLength = 4`. -/
def c4rec : Recording where
  dataRecordDuration := 1
  dataRecordCount := 3
  discontinuous := true
  dataGaps := [(2, 1)]
  dataLength := 3
  totalLength := 4

/-- Counterexample to C4 as stated: `t = 3` lies in `[0, totalLength]` and is
not *strictly* inside the gap (whose open recording span is `(2, 3)`), yet the
round trip returns `2`: a recording time equal to a gap end does not
round-trip. -/
theorem c4_counterexample :
    (0 : ℚ) ≤ 3 ∧ (3 : ℚ) ≤ c4rec.totalLength ∧
    (∀ q ∈ gapPositions 0 c4rec.dataGaps, ¬(q.1 < 3 ∧ 3 < q.1 + q.2)) ∧
    (recordingTimeToCacheTime c4rec 3).bind (cacheTimeToRecordingTime c4rec)
      = some 2 := by
  refine ⟨by norm_num, by norm_num [c4rec], ?_, ?_⟩
  · intro q hq
    simp only [c4rec, gapPositions, List.mem_cons, List.not_mem_nil,
      or_false] at hq
    subst hq
    norm_num
  · norm_num [c4rec, recordingTimeToCacheTime, getGapTimeBetween, getDataGaps,
      getDataGapsAux, cacheTimeToRecordingTime, dataRecordIndexToTime,
      sumDursBefore, durSum, Option.bind]

/-- Witness for the amended C4: on the same state, `t = 7/2` (strictly past
the gap end) round-trips through cache time `5/2`. -/
theorem c4_time_round_trip_witness :
    (recordingTimeToCacheTime c4rec (7/2)).bind
      (cacheTimeToRecordingTime c4rec) = some (7/2) :=
  c4_time_round_trip c4rec (7/2)
    (by norm_num [c4rec])
    (by norm_num [c4rec])
    (by norm_num [c4rec, durSum])
    (by norm_num [c4rec])
    (by
      intro g hg
      simp only [c4rec, List.mem_cons, List.not_mem_nil, or_false] at hg
      subst hg
      norm_num [c4rec])
    (by simp [c4rec])
    (by simp [c4rec])
    (by norm_num)
    (by norm_num [c4rec])
    (by
      intro q hq
      simp only [c4rec, gapPositions, List.mem_cons, List.not_mem_nil,
        or_false] at hq
      subst hq
      norm_num)
    (by norm_num [c4rec])

end EdfReader
